import Mathlib

/-!
Verification development for the k0s `version` Go package.

The definitions below are a shallow embedding of the Go sources:

* `newVersion`, `render`, `compareV`, `compareOpt`, `equalOpt`, `paddedSegs`
  embed `version.go` (`NewVersion`, `String`, `Compare`, `Equal`, `Segments`).
* `parseSegmentF`, `newConstraint`, `Constraint.check` embed the constraint
  compiler and evaluator (`constraintRegex`, `parseSegment`, `opfunc`, `Check`).
* `loadAllM` embeds the cache/catalog state machine `loadAll` of `collection.go`,
  with the filesystem and HTTP effects abstracted into explicit inputs.
* `upgradePath` embeds `(*Version).UpgradePath` of the collection module, with
  the catalog passed explicitly instead of being fetched by `All`.

Go machine integers: all numeric segments are parsed with
`strconv.ParseUint(s, 10, 32)`, so they are natural numbers below 2^32; they are
modelled as `Nat` and the parser rejects values ≥ 2^32, after which no
arithmetic can overflow.  Go string comparison (`<` on strings) is byte-wise
lexicographic on UTF-8; Lean string comparison is lexicographic on code points;
the two orders agree because UTF-8 encoding preserves code-point order.

Pointers: Go `Compare` starts with nil checks and a pointer-equality shortcut
(`v == b`).  Nil-ness is modelled with `Option Version`; the pointer-equality
shortcut is not modelled separately because pointer equality implies field
equality, for which the fall-through comparison returns 0 as well.  The private
memoization field `s` of `Version` is not modelled: it is empty on every value
produced by `NewVersion`, and `String` only ever stores the rendered form in it.
-/

/-- Version value: the `comparableFields` of the Go `Version` struct
(`segments [3]int`, `numSegments`, `pre`, `isK0s`, `k0s`, `meta`). -/
structure Version where
  seg0 : Nat
  seg1 : Nat
  seg2 : Nat
  numSegments : Nat
  pre : String
  isK0s : Bool
  k0s : Nat
  meta : String
deriving DecidableEq, Repr

/-- Character admissibility check of `NewVersion`: the Go loop rejects any rune
outside lowercase letters, digits, and the three punctuation marks. -/
def versionCharOk (c : Char) : Bool :=
  if ('a' ≤ c ∧ c ≤ 'z') ∨ ('0' ≤ c ∧ c ≤ '9') ∨ c = '+' ∨ c = '-' ∨ c = '.' then true else false

/-- Embedding of `strconv.ParseUint(s, 10, 32)`: a non-empty all-digit string
whose value fits in 32 bits; no sign prefixes, leading zeros allowed. -/
def parseUint32 (s : List Char) : Option Nat :=
  if s.isEmpty then none
  else if s.all Char.isDigit then
    let n := s.foldl (fun acc c => acc * 10 + (c.toNat - 48)) 0
    if n < 4294967296 then some n else none
  else none

/-- Parses each dot-separated numeric segment, failing if any fails
(the Go loop over `segments` with `strconv.ParseUint`). -/
def parseSegments : List String → Option (List Nat)
  | [] => some []
  | s :: rest => do
      let n ← parseUint32 s.toList
      let ns ← parseSegments rest
      pure (n :: ns)

/-- Embedding of the metadata rebuild loop of `NewVersion` (version.go lines
102-117): iterate over the dot-separated metadata parts by index; a part equal
to "k0s" with a successor tries to parse the successor as an integer (setting
`isK0s`/`k0s` on success); a part is appended to the rebuilt metadata only when
its index is positive and its predecessor is not "k0s", with a "." separator
appended after every non-final index. -/
def metaLoop (parts : List String) : Bool × Nat × String :=
  let n := parts.length
  (List.range n).foldl
    (fun st idx =>
      let isk := st.1
      let kv := st.2.1
      let acc := st.2.2
      let part := (parts.get? idx).getD ""
      if part = "k0s" ∧ idx < n - 1 then
        match parseUint32 ((parts.get? (idx+1)).getD "").toList with
        | some k => (true, k, acc)
        | none => (isk, kv, acc)
      else if 0 < idx ∧ (parts.get? (idx - 1)).getD "" ≠ "k0s" then
        (isk, kv, acc ++ part ++ (if idx < n - 1 then "." else ""))
      else (isk, kv, acc))
    (false, 0, "")

/-- Embedding of `NewVersion` (version.go lines 37-121). Errors are collapsed
to `none`; the error messages themselves are not claim-relevant. -/
def newVersion (input : String) : Option Version :=
  let cs0 := input.toList
  let cs := match cs0 with
    | c :: rest => if c = 'v' then rest else cs0
    | [] => []
  if cs.isEmpty then none
  else if ¬ cs.all versionCharOk then none
  else
    let idx? := cs.findIdx? (fun c => c = '-' ∨ c = '+')
    let core := match idx? with | some i => cs.take i | none => cs
    let extra := match idx? with | some i => cs.drop i | none => []
    let segStrs := (core.splitOn '.').map (fun l => String.mk l)
    if segStrs.length > 3 then none
    else
      match parseSegments segStrs with
      | none => none
      | some segs =>
        let base : Version :=
          { seg0 := segs.getD 0 0, seg1 := segs.getD 1 0, seg2 := segs.getD 2 0
            numSegments := segs.length, pre := "", isK0s := false, k0s := 0, meta := "" }
        if extra.isEmpty then some base
        else
          let plusIdx? := extra.findIdx? (fun c => c = '+')
          let minusIdx? := match plusIdx? with
            | none => extra.findIdx? (fun c => c = '-')
            | some p => (extra.take p).findIdx? (fun c => c = '-')
          let preStr := match minusIdx?, plusIdx? with
            | some m, none => String.mk (extra.drop (m+1))
            | some m, some p => String.mk ((extra.take p).drop (m+1))
            | none, _ => ""
          match plusIdx? with
          | none => some { base with pre := preStr }
          | some p =>
            let metaChars := extra.drop (p+1)
            let metaStr := String.mk metaChars
            let parts := (metaChars.splitOn '.').map (fun l => String.mk l)
            if parts.length = 1 then some { base with pre := preStr, meta := metaStr }
            else
              let r := metaLoop parts
              some { base with pre := preStr, isK0s := r.1, k0s := r.2.1, meta := r.2.2 }

/-- Embedding of `(*Version).String` (version.go lines 192-233) for a non-nil
receiver: the canonical v-prefixed rendering built from the fields. -/
def render (v : Version) : String :=
  if v.numSegments = 0 then ""
  else
    let core :=
      if v.numSegments = 1 then toString v.seg0
      else if v.numSegments = 2 then toString v.seg0 ++ "." ++ toString v.seg1
      else toString v.seg0 ++ "." ++ toString v.seg1 ++ "." ++ toString v.seg2
    "v" ++ core
      ++ (if v.pre ≠ "" then "-" ++ v.pre else "")
      ++ (if v.isK0s ∨ v.meta ≠ "" then "+" else "")
      ++ (if v.isK0s then "k0s." ++ toString v.k0s ++ (if v.meta ≠ "" then "." else "") else "")
      ++ v.meta

/-- Embedding of `(*Version).Segments` (version.go lines 124-133): the numeric
segments zero-padded to length three. -/
def Version.paddedSegs (v : Version) : Nat × Nat × Nat :=
  (if 0 < v.numSegments then v.seg0 else 0,
   if 1 < v.numSegments then v.seg1 else 0,
   if 2 < v.numSegments then v.seg2 else 0)

/-- Lexicographic comparison of character lists by code point.  Go compares
strings byte-wise on their UTF-8 encoding, which orders strings exactly like
code-point-wise comparison because UTF-8 preserves code-point order. -/
def charListLt : List Char → List Char → Bool
  | [], [] => false
  | [], _ :: _ => true
  | _ :: _, [] => false
  | a :: as, b :: bs => if a < b then true else if b < a then false else charListLt as bs

/-- Embedding of the Go string comparison `s1 < s2`. -/
def strLt (a b : String) : Bool :=
  charListLt a.toList b.toList

/-- Embedding of the non-nil body of `(*Version).Compare` (version.go lines
246-315): zero-padded segments, then the prerelease rules, then the k0s rules;
`meta` is never consulted. -/
def compareV (v b : Version) : Int :=
  match v.paddedSegs, b.paddedSegs with
  | (v0, v1, v2), (b0, b1, b2) =>
  if v0 < b0 then -1
  else if b0 < v0 then 1
  else if v1 < b1 then -1
  else if b1 < v1 then 1
  else if v2 < b2 then -1
  else if b2 < v2 then 1
  else if v.pre = "" ∧ b.pre ≠ "" then 1
  else if v.pre ≠ "" ∧ b.pre = "" then -1
  else if strLt v.pre b.pre then -1
  else if strLt b.pre v.pre then 1
  else if v.isK0s ∧ ¬ b.isK0s then 1
  else if ¬ v.isK0s ∧ b.isK0s then -1
  else if b.k0s < v.k0s then 1
  else if v.k0s < b.k0s then -1
  else 0

/-- Embedding of `(*Version).Compare` including the nil cases (version.go lines
246-256): nil on either side short-circuits, with nil-nil yielding -1. -/
def compareOpt : Option Version → Option Version → Int
  | none, none => -1
  | none, some _ => -1
  | some _, none => 1
  | some v, some b => compareV v b

/-- Embedding of `(*Version).Equal` (version.go lines 236-243): false whenever
either operand is nil, otherwise `Compare == 0`. -/
def equalOpt : Option Version → Option Version → Bool
  | some v, some b => compareV v b == 0
  | _, _ => false

/-- Comparison irreflexivity helper: a list never lexicographically precedes
itself. -/
theorem charListLt_irrefl : ∀ l, charListLt l l = false
  | [] => rfl
  | a :: as => by simp [charListLt, charListLt_irrefl as]

/-- Comparison antisymmetry helper: two lists that precede each other in
neither direction are equal. -/
theorem charListLt_antisymm : ∀ as bs, charListLt as bs = false → charListLt bs as = false → as = bs
  | [], [], _, _ => rfl
  | [], _ :: _, h, _ => by simp [charListLt] at h
  | _ :: _, [], _, h => by simp [charListLt] at h
  | a :: as, b :: bs, h, h2 => by
      simp only [charListLt] at h h2
      rcases lt_trichotomy a b with hab | hab | hab
      · simp [hab] at h
      · subst hab
        simp only [lt_irrefl, if_false] at h h2
        rw [charListLt_antisymm as bs h h2]
      · simp [hab, lt_asymm hab] at h2

/-- Comparison agreement helper: the boolean lexicographic comparison agrees
with the lexicographic order relation on lists. -/
theorem charListLt_iff_lex : ∀ as bs, charListLt as bs = true ↔ List.Lex (· < ·) as bs
  | [], [] => by simp [charListLt]
  | [], b :: bs => iff_of_true rfl List.Lex.nil
  | a :: as, [] => iff_of_false (by simp [charListLt]) (fun h => by cases h)
  | a :: as, b :: bs => by
      simp only [charListLt]
      rcases lt_trichotomy a b with hab | hab | hab
      · simp only [hab, if_true, true_iff]; exact List.Lex.rel hab
      · subst hab
        simp only [lt_irrefl, if_false]
        rw [charListLt_iff_lex as bs]
        constructor
        · exact List.Lex.cons
        · intro h
          cases h with
          | cons h => exact h
          | rel h => exact absurd h (lt_irrefl a)
      · rw [if_neg (lt_asymm hab), if_pos hab]
        constructor
        · intro h; simp at h
        · intro h
          cases h with
          | cons h2 => exact absurd hab (lt_irrefl _)
          | rel h2 => exact absurd hab (lt_asymm h2)

/-- Prerelease component of the comparison key: stable sorts above any
prerelease, two prereleases compare lexicographically. -/
def preKey (v : Version) : Nat ×ₗ (List Char) :=
  toLex (if v.pre = "" then 1 else 0, v.pre.toList)

/-- K0s component of the comparison key: tagged sorts above untagged, two
tagged versions compare by the k0s number. -/
def k0sKey (v : Version) : Nat ×ₗ Nat :=
  toLex ((if v.isK0s then 1 else 0 : Nat), v.k0s)

/-- Total comparison key: `Compare` orders versions exactly like the
lexicographic order of these keys. -/
def key (v : Version) : Nat ×ₗ (Nat ×ₗ (Nat ×ₗ ((Nat ×ₗ (List Char)) ×ₗ (Nat ×ₗ Nat)))) :=
  toLex (v.paddedSegs.1,
    toLex (v.paddedSegs.2.1, toLex (v.paddedSegs.2.2, toLex (preKey v, k0sKey v))))

/-- Helper for the three-way specification in the less-than case. -/
theorem key_spec_lt {K : Type} [LinearOrder K] {x y : K} (h : x < y) :
    ((-1 : Int) = -1 ↔ x < y) ∧ ((-1 : Int) = 0 ↔ x = y) ∧ ((-1 : Int) = 1 ↔ y < x) :=
  ⟨iff_of_true rfl h, iff_of_false (by decide) (fun e => absurd h (e ▸ lt_irrefl y)),
    iff_of_false (by decide) (fun e => absurd h (not_lt.mpr (le_of_lt e)))⟩

/-- Helper for the three-way specification in the equality case. -/
theorem key_spec_eq {K : Type} [LinearOrder K] {x y : K} (h : x = y) :
    ((0 : Int) = -1 ↔ x < y) ∧ ((0 : Int) = 0 ↔ x = y) ∧ ((0 : Int) = 1 ↔ y < x) :=
  ⟨iff_of_false (by decide) (fun e => absurd e (h ▸ lt_irrefl y)), iff_of_true rfl h,
    iff_of_false (by decide) (fun e => absurd e (h ▸ lt_irrefl y))⟩

/-- Helper for the three-way specification in the greater-than case. -/
theorem key_spec_gt {K : Type} [LinearOrder K] {x y : K} (h : y < x) :
    ((1 : Int) = -1 ↔ x < y) ∧ ((1 : Int) = 0 ↔ x = y) ∧ ((1 : Int) = 1 ↔ y < x) :=
  ⟨iff_of_false (by decide) (fun e => absurd h (not_lt.mpr (le_of_lt e))),
    iff_of_false (by decide) (fun e => absurd h (e ▸ lt_irrefl y)), iff_of_true rfl h⟩

/-- String antisymmetry helper lifted from the list level. -/
theorem pre_eq_of_not_lt {x y : String} (h1 : ¬ strLt x y = true) (h2 : ¬ strLt y x = true) :
    x = y := by
  have e := charListLt_antisymm x.toList y.toList
    (Bool.not_eq_true _ ▸ h1) (Bool.not_eq_true _ ▸ h2)
  exact String.toList_inj.mp e

/-- Prerelease key only depends on the prerelease field. -/
theorem preKey_congr {a b : Version} (h : a.pre = b.pre) : preKey a = preKey b := by
  simp [preKey, h]

/-- Unfolds a key comparison into its component comparisons. -/
theorem keyLt_iff (a b : Version) :
    key a < key b ↔
      (a.paddedSegs.1 < b.paddedSegs.1 ∨ a.paddedSegs.1 = b.paddedSegs.1 ∧
        (a.paddedSegs.2.1 < b.paddedSegs.2.1 ∨ a.paddedSegs.2.1 = b.paddedSegs.2.1 ∧
          (a.paddedSegs.2.2 < b.paddedSegs.2.2 ∨ a.paddedSegs.2.2 = b.paddedSegs.2.2 ∧
            (preKey a < preKey b ∨ preKey a = preKey b ∧ k0sKey a < k0sKey b)))) := by
  simp [key, Prod.Lex.lt_iff]

/-- Unfolds a key equality into its component equalities. -/
theorem keyEq_iff (a b : Version) :
    key a = key b ↔
      (a.paddedSegs.1 = b.paddedSegs.1 ∧ a.paddedSegs.2.1 = b.paddedSegs.2.1 ∧
        a.paddedSegs.2.2 = b.paddedSegs.2.2 ∧ preKey a = preKey b ∧ k0sKey a = k0sKey b) := by
  simp [key, toLex_inj, Prod.mk.injEq, and_assoc]

/-- Unfolds a prerelease-key comparison. -/
theorem preKeyLt_iff (a b : Version) :
    preKey a < preKey b ↔
      ((if a.pre = "" then 1 else 0 : Nat) < (if b.pre = "" then 1 else 0) ∨
        ((if a.pre = "" then 1 else 0 : Nat) = (if b.pre = "" then 1 else 0) ∧
          a.pre.toList < b.pre.toList)) := by
  simp [preKey, Prod.Lex.lt_iff]

/-- Prerelease keys are equal exactly when the prerelease strings are. -/
theorem preKeyEq_iff (a b : Version) : preKey a = preKey b ↔ a.pre = b.pre := by
  constructor
  · intro h
    simp only [preKey, toLex_inj, Prod.mk.injEq] at h
    exact String.toList_inj.mp h.2
  · exact preKey_congr

/-- Unfolds a k0s-key comparison. -/
theorem k0sKeyLt_iff (a b : Version) :
    k0sKey a < k0sKey b ↔
      ((if a.isK0s then 1 else 0 : Nat) < (if b.isK0s then 1 else 0) ∨
        ((if a.isK0s then 1 else 0 : Nat) = (if b.isK0s then 1 else 0) ∧ a.k0s < b.k0s)) := by
  simp [k0sKey, Prod.Lex.lt_iff]

/-- K0s keys are equal exactly when both k0s fields are. -/
theorem k0sKeyEq_iff (a b : Version) :
    k0sKey a = k0sKey b ↔ (a.isK0s = b.isK0s ∧ a.k0s = b.k0s) := by
  simp only [k0sKey, toLex_inj, Prod.mk.injEq]
  constructor
  · rintro ⟨h1, h2⟩
    rcases hx : a.isK0s <;> rcases hy : b.isK0s <;> simp_all
  · rintro ⟨h1, h2⟩
    rw [h1, h2]
    exact ⟨rfl, rfl⟩

/-- Bridges the boolean string comparison to the lexicographic list relation. -/
theorem strLt_iff_lex (x y : String) : strLt x y = true ↔ List.Lex (· < ·) x.toList y.toList :=
  charListLt_iff_lex _ _

/-- Bridges the list order instance to the lexicographic relation. -/
theorem listLt_iff_lex (as bs : List Char) : as < bs ↔ List.Lex (· < ·) as bs :=
  Iff.rfl

/-- Master specification of `Compare`: its three possible results correspond
exactly to the three orderings of the total comparison keys. -/
theorem compareV_key_spec (a b : Version) :
    (compareV a b = -1 ↔ key a < key b) ∧ (compareV a b = 0 ↔ key a = key b) ∧
      (compareV a b = 1 ↔ key b < key a) := by
  have hlt := keyLt_iff a b
  have hlt2 := keyLt_iff b a
  have heq := keyEq_iff a b
  rcases ha : a.paddedSegs with ⟨a0, a1, a2⟩
  rcases hb : b.paddedSegs with ⟨b0, b1, b2⟩
  simp only [ha, hb] at hlt hlt2 heq
  simp only [compareV, ha, hb]
  by_cases h1 : a0 < b0
  · rw [if_pos h1]
    exact key_spec_lt (hlt.mpr (Or.inl h1))
  rw [if_neg h1]
  by_cases h2 : b0 < a0
  · rw [if_pos h2]
    exact key_spec_gt (hlt2.mpr (Or.inl h2))
  rw [if_neg h2]
  have e0 : a0 = b0 := le_antisymm (not_lt.mp h2) (not_lt.mp h1)
  by_cases h3 : a1 < b1
  · rw [if_pos h3]
    exact key_spec_lt (hlt.mpr (Or.inr ⟨e0, Or.inl h3⟩))
  rw [if_neg h3]
  by_cases h4 : b1 < a1
  · rw [if_pos h4]
    exact key_spec_gt (hlt2.mpr (Or.inr ⟨e0.symm, Or.inl h4⟩))
  rw [if_neg h4]
  have e1 : a1 = b1 := le_antisymm (not_lt.mp h4) (not_lt.mp h3)
  by_cases h5 : a2 < b2
  · rw [if_pos h5]
    exact key_spec_lt (hlt.mpr (Or.inr ⟨e0, Or.inr ⟨e1, Or.inl h5⟩⟩))
  rw [if_neg h5]
  by_cases h6 : b2 < a2
  · rw [if_pos h6]
    exact key_spec_gt (hlt2.mpr (Or.inr ⟨e0.symm, Or.inr ⟨e1.symm, Or.inl h6⟩⟩))
  rw [if_neg h6]
  have e2 : a2 = b2 := le_antisymm (not_lt.mp h6) (not_lt.mp h5)
  by_cases h7 : a.pre = "" ∧ b.pre ≠ ""
  · rw [if_pos h7]
    refine key_spec_gt (hlt2.mpr (Or.inr ⟨e0.symm, Or.inr ⟨e1.symm, Or.inr ⟨e2.symm, Or.inl ?_⟩⟩⟩))
    rw [preKeyLt_iff]
    left
    rw [if_pos h7.1, if_neg h7.2]
    omega
  rw [if_neg h7]
  by_cases h8 : a.pre ≠ "" ∧ b.pre = ""
  · rw [if_pos h8]
    refine key_spec_lt (hlt.mpr (Or.inr ⟨e0, Or.inr ⟨e1, Or.inr ⟨e2, Or.inl ?_⟩⟩⟩))
    rw [preKeyLt_iff]
    left
    rw [if_neg h8.1, if_pos h8.2]
    omega
  rw [if_neg h8]
  by_cases h9 : strLt a.pre b.pre = true
  · rw [if_pos h9]
    refine key_spec_lt (hlt.mpr (Or.inr ⟨e0, Or.inr ⟨e1, Or.inr ⟨e2, Or.inl ?_⟩⟩⟩))
    have hanz : a.pre ≠ "" := by
      intro hae
      rcases em (b.pre = "") with hbe | hbe
      · rw [hae, hbe] at h9
        exact absurd h9 (by simp [strLt, charListLt])
      · exact h7 ⟨hae, hbe⟩
    have hbnz : b.pre ≠ "" := fun hbe => h8 ⟨hanz, hbe⟩
    rw [preKeyLt_iff]
    right
    refine ⟨by rw [if_neg hanz, if_neg hbnz], ?_⟩
    rw [listLt_iff_lex]
    exact (strLt_iff_lex _ _).mp h9
  rw [if_neg h9]
  by_cases h10 : strLt b.pre a.pre = true
  · rw [if_pos h10]
    refine key_spec_gt (hlt2.mpr (Or.inr ⟨e0.symm, Or.inr ⟨e1.symm, Or.inr ⟨e2.symm, Or.inl ?_⟩⟩⟩))
    have hbnz : b.pre ≠ "" := by
      intro hbe
      rcases em (a.pre = "") with hae | hae
      · rw [hbe, hae] at h10
        exact absurd h10 (by simp [strLt, charListLt])
      · exact h8 ⟨hae, hbe⟩
    have hanz : a.pre ≠ "" := fun hae => h7 ⟨hae, hbnz⟩
    rw [preKeyLt_iff]
    right
    refine ⟨by rw [if_neg hbnz, if_neg hanz], ?_⟩
    rw [listLt_iff_lex]
    exact (strLt_iff_lex _ _).mp h10
  rw [if_neg h10]
  have epre : a.pre = b.pre := pre_eq_of_not_lt h9 h10
  by_cases h11 : a.isK0s = true ∧ ¬ b.isK0s = true
  · rw [if_pos h11]
    refine key_spec_gt (hlt2.mpr (Or.inr ⟨e0.symm, Or.inr ⟨e1.symm, Or.inr ⟨e2.symm,
      Or.inr ⟨(preKeyEq_iff b a).mpr epre.symm, ?_⟩⟩⟩⟩))
    rw [k0sKeyLt_iff]
    left
    rw [if_neg h11.2, if_pos h11.1]
    omega
  rw [if_neg h11]
  by_cases h12 : ¬ a.isK0s = true ∧ b.isK0s = true
  · rw [if_pos h12]
    refine key_spec_lt (hlt.mpr (Or.inr ⟨e0, Or.inr ⟨e1, Or.inr ⟨e2,
      Or.inr ⟨(preKeyEq_iff a b).mpr epre, ?_⟩⟩⟩⟩))
    rw [k0sKeyLt_iff]
    left
    rw [if_neg h12.1, if_pos h12.2]
    omega
  rw [if_neg h12]
  have ek : a.isK0s = b.isK0s := by
    rcases hx : a.isK0s <;> rcases hy : b.isK0s <;> simp_all
  by_cases h13 : b.k0s < a.k0s
  · rw [if_pos h13]
    refine key_spec_gt (hlt2.mpr (Or.inr ⟨e0.symm, Or.inr ⟨e1.symm, Or.inr ⟨e2.symm,
      Or.inr ⟨(preKeyEq_iff b a).mpr epre.symm, ?_⟩⟩⟩⟩))
    rw [k0sKeyLt_iff]
    right
    exact ⟨by rw [ek], h13⟩
  rw [if_neg h13]
  by_cases h14 : a.k0s < b.k0s
  · rw [if_pos h14]
    refine key_spec_lt (hlt.mpr (Or.inr ⟨e0, Or.inr ⟨e1, Or.inr ⟨e2,
      Or.inr ⟨(preKeyEq_iff a b).mpr epre, ?_⟩⟩⟩⟩))
    rw [k0sKeyLt_iff]
    right
    exact ⟨by rw [ek], h14⟩
  rw [if_neg h14]
  have ekn : a.k0s = b.k0s := le_antisymm (not_lt.mp h13) (not_lt.mp h14)
  exact key_spec_eq (heq.mpr ⟨e0, e1, e2, (preKeyEq_iff a b).mpr epre,
    (k0sKeyEq_iff a b).mpr ⟨ek, ekn⟩⟩)

/-- Comparison returns zero exactly when the zero-padded segments, prerelease,
k0s flag and k0s number agree; shared characterization used by several claims. -/
theorem compareV_eq_zero_iff (a b : Version) :
    compareV a b = 0 ↔
      (a.paddedSegs = b.paddedSegs ∧ a.pre = b.pre ∧ a.isK0s = b.isK0s ∧ a.k0s = b.k0s) := by
  rw [(compareV_key_spec a b).2.1, keyEq_iff, preKeyEq_iff, k0sKeyEq_iff, Prod.ext_iff,
    Prod.ext_iff]
  tauto

/-- Comparison takes only the three values -1, 0 and 1. -/
theorem compareV_values (a b : Version) :
    compareV a b = -1 ∨ compareV a b = 0 ∨ compareV a b = 1 := by
  rcases lt_trichotomy (key a) (key b) with h | h | h
  · exact Or.inl ((compareV_key_spec a b).1.mpr h)
  · exact Or.inr (Or.inl ((compareV_key_spec a b).2.1.mpr h))
  · exact Or.inr (Or.inr ((compareV_key_spec a b).2.2.mpr h))

/-- Claim C1: for all non-nil parsed versions, Compare returns 0 exactly when
the zero-padded three numeric segments, pre, isK0s and k0s fields all agree,
and the meta field never influences the result of Compare. -/
theorem c1_compare_zero_iff_fields_and_meta_irrelevant : ∀ a b : Version,
    (compareV a b = 0 ↔
      (a.paddedSegs = b.paddedSegs ∧ a.pre = b.pre ∧ a.isK0s = b.isK0s ∧ a.k0s = b.k0s)) ∧
    (∀ m1 m2 : String, compareV { a with meta := m1 } { b with meta := m2 } = compareV a b) :=
  fun a b => ⟨compareV_eq_zero_iff a b, fun _ _ => rfl⟩

/-- Claim C10: at the nil edge, Compare returns -1 for nil-nil and nil-receiver,
1 when only the argument is nil, and Equal is false whenever either operand is
nil. -/
theorem c10_nil_compare_and_equal :
    compareOpt none none = -1 ∧
    (∀ b : Version, compareOpt none (some b) = -1) ∧
    (∀ a : Version, compareOpt (some a) none = 1) ∧
    (∀ b : Option Version, equalOpt none b = false) ∧
    (∀ a : Option Version, equalOpt a none = false) := by
  refine ⟨rfl, fun b => rfl, fun a => rfl, fun b => ?_, fun a => ?_⟩
  · cases b <;> rfl
  · cases a <;> rfl

/-- Claim C2 (evaluation at the failing input): parsing "1.0.0+a.b.c" renders
as "v1.0.0+b.c", but re-parsing that rendering renders as "v1.0.0+c", so
render-parse-render is not the identity on parsed versions. -/
theorem c2_roundtrip_failure :
    (newVersion "1.0.0+a.b.c").map render = some "v1.0.0+b.c" ∧
    (newVersion "v1.0.0+b.c").map render = some "v1.0.0+c" ∧
    ("v1.0.0+b.c" : String) ≠ "v1.0.0+c" := by
  refine ⟨by decide, by decide, by decide⟩

/-- Claim C3 (evaluation at the failing inputs): for "1.0.0+a.k0s.1" the k0s
pair is extracted but the remaining part "a" is dropped instead of being
retained; for "1.0.0+k0s.x" the integer parse fails and the "k0s"/"x" tokens
are dropped instead of being kept as ordinary metadata. -/
theorem c3_meta_rebuild_failure :
    (newVersion "1.0.0+a.k0s.1").map (fun v => (v.isK0s, v.k0s, v.meta)) = some (true, 1, "") ∧
    (newVersion "1.0.0+k0s.x").map (fun v => (v.isK0s, v.meta)) = some (false, "") := by
  refine ⟨by decide, by decide⟩

/-- Operator of a constraint segment: which comparison `opfunc` selected for
the stored `constraintFunc`. -/
inductive COp
  | eq
  | gt
  | gte
  | lt
  | lte
  | neq
deriving DecidableEq, Repr

/-- Embedding of `opfunc` (the old-constraint module): maps an operator string
to the comparison it evaluates; unknown operators are an error. -/
def opfunc : String → Option COp
  | "" => some COp.eq
  | "=" => some COp.eq
  | "==" => some COp.eq
  | ">" => some COp.gt
  | ">=" => some COp.gte
  | "<" => some COp.lt
  | "<=" => some COp.lte
  | "!=" => some COp.neq
  | _ => none

/-- Whitespace class of the Go regexp (backslash-s): tab, newline, form feed,
carriage return and space. -/
def isGoSpace (c : Char) : Bool :=
  if c = ' ' ∨ c = '\t' ∨ c = '\n' ∨ c = '\r' ∨ c.toNat = 12 then true else false

/-- Emulation of `constraintRegex.FindStringSubmatch` for the anchored pattern
that captures an optional operator and the remainder.  Go regexp semantics are
leftmost-first with backtracking, which for this pattern comes down to: the
empty string does not match; leading whitespace is consumed greedily; at the
first non-space position the operator alternatives are tried in pattern order,
each accepted only when at least one character remains for the mandatory
remainder group; the whitespace after the operator is consumed greedily but
backs off to leave one character when everything after the operator is
whitespace; without a viable operator the whole remainder is captured.  On an
all-whitespace input the leading whitespace group backs off by one character
and that character becomes the remainder. -/
def matchConstraint (s : String) : Option (String × String) :=
  if s.isEmpty then none
  else
    let cs := s.toList
    let t := cs.dropWhile isGoSpace
    if t.isEmpty then some ("", String.mk (cs.drop (cs.length - 1)))
    else
      let tryOp := fun (op : String) =>
        if op.toList.isPrefixOf t then
          let u := t.drop op.length
          if u.isEmpty then none
          else
            let w := u.dropWhile isGoSpace
            some (op, if w.isEmpty then String.mk (u.drop (u.length - 1)) else String.mk w)
        else none
      tryOp ">=" <|> tryOp ">" <|> tryOp "<=" <|> tryOp "<" <|> tryOp "!=" <|>
        tryOp "==" <|> tryOp "=" <|> some ("", String.mk t)

/-- Constraint segment: an operator paired with the stored reference version
(the `constraintSegment` struct). -/
structure CSeg where
  op : COp
  b : Version
deriving DecidableEq, Repr

/-- Embedding of `parseSegment`: operator extraction, the two-digit
normalization rebuild for non-equality operators, and reference parsing.  The
Go function recurses on a rebuilt string; the rebuilt remainder always has
exactly three dot-chunks, so the recursion depth is at most one and the fuel
parameter never runs out when started at 3. -/
def parseSegmentF : Nat → String → Option (List CSeg)
  | 0, _ => none
  | fuel+1, s =>
    match matchConstraint s with
    | none => none
    | some (opStr, rest) =>
      match opfunc opStr with
      | none => none
      | some f =>
        if opStr ≠ "" ∧ opStr ≠ "=" ∧ opStr ≠ "==" then
          let vSegments := (rest.toList.splitOn '.').map (fun l => String.mk l)
          if vSegments.length < 3 then
            let lastSegment := (vSegments.getLast?).getD ""
            let hasDash := lastSegment.toList.contains '-'
            let parts := (lastSegment.toList.splitOn '-').map (fun l => String.mk l)
            let lastFixed := if hasDash then (parts.get? 0).getD "" else lastSegment
            let preS := if hasDash then "-" ++ (parts.get? 1).getD "" else ""
            match vSegments.length with
            | 1 => parseSegmentF fuel (opStr ++ " " ++ lastFixed ++ ".0.0" ++ preS)
            | 2 => parseSegmentF fuel
                (opStr ++ " " ++ ((vSegments.get? 0).getD "") ++ "." ++ lastFixed ++ ".0" ++ preS)
            | _ => (newVersion rest).map (fun t => [{ op := f, b := t }])
          else
            (newVersion rest).map (fun t => [{ op := f, b := t }])
        else
          (newVersion rest).map (fun t => [{ op := f, b := t }])

/-- Embedding of `NewConstraint`: split on commas, parse every segment,
concatenate; any failure aborts. -/
def newConstraint (cs : String) : Option (List CSeg) :=
  ((cs.toList.splitOn ',').map (fun l => String.mk l)).foldl
    (fun acc p => do
      let segs ← acc
      let s ← parseSegmentF 3 p
      pure (segs ++ s))
    (some [])

/-- Embedding of `Constraint.Check`: every segment must accept; a segment
first applies the prerelease gate (a stable reference rejects any prerelease
candidate), then evaluates its operator with the candidate on the left. -/
def checkSegs (segs : List CSeg) (v : Version) : Bool :=
  segs.all (fun c =>
    if c.b.pre = "" ∧ v.pre ≠ "" then false
    else
      match c.op with
      | COp.eq => compareV v c.b == 0
      | COp.gt => compareV v c.b == 1
      | COp.gte => decide (0 ≤ compareV v c.b)
      | COp.lt => compareV v c.b == -1
      | COp.lte => decide (compareV v c.b ≤ 0)
      | COp.neq => ! (compareV v c.b == 0))

/-- Embedding of `Constraint.CheckString` for an already-parsed constraint:
parse the candidate and check it, treating a parse failure as false. -/
def checkStringSegs (segs : List CSeg) (v : String) : Bool :=
  match newVersion v with
  | none => false
  | some vv => checkSegs segs vv

/-- Stored reference versions of a parsed constraint segment string. -/
def storedRefs (s : String) : Option (List Version) :=
  (parseSegmentF 3 s).map (fun l => l.map (fun c => c.b))

/-- Splitting a list that avoids the separator leaves it whole. -/
theorem splitOn_single {l : List Char} {sep : Char} (h : ∀ x ∈ l, x ≠ sep) :
    l.splitOn sep = [l] := by
  unfold List.splitOn
  refine List.splitOnP_eq_single _ _ ?_
  intro x hx
  simpa using h x hx

/-- Splitting peels off a separator-free prefix at the first separator. -/
theorem splitOn_sep_cons {l : List Char} {sep : Char} (h : ∀ x ∈ l, x ≠ sep)
    (as : List Char) : (l ++ sep :: as).splitOn sep = l :: as.splitOn sep := by
  unfold List.splitOn
  exact List.splitOnP_first (fun x => x == sep) l (fun x hx => by simpa using h x hx) sep
    (beq_self_eq_true sep) as

/-- Nonempty strings are not `isEmpty`. -/
theorem isEmpty_false_of_ne (s : String) (h : s ≠ "") : s.isEmpty = false := by
  cases he : s.isEmpty
  · rfl
  · exact absurd ((String.isEmpty_iff s).mp he) h

/-- Appending a cons-shaped string never yields the empty string. -/
theorem append_cons_isEmpty (a : String) (c : Char) (zs : List Char) :
    (a ++ String.mk (c :: zs)).isEmpty = false := by
  refine isEmpty_false_of_ne _ ?_
  intro h
  have hd := congrArg String.data h
  simp at hd

/-- Regex-emulation extraction lemma: for each of the five inequality operator
spellings, a constraint written as the operator, one space, and a remainder
that starts with a non-whitespace character matches into exactly that operator
and that remainder. -/
theorem matchConstraint_op (o : String)
    (ho : o = ">=" ∨ o = ">" ∨ o = "<=" ∨ o = "<" ∨ o = "!=")
    (z : String) (c : Char) (zs : List Char)
    (hz : z.toList = c :: zs) (hc : isGoSpace c = false) :
    matchConstraint (o ++ " " ++ z) = some (o, z) := by
  have hzz : z = String.mk (c :: zs) := by rw [← hz]; rfl
  subst hzz
  rcases ho with h | h | h | h | h <;> subst h <;>
    simp [matchConstraint, isGoSpace] at hc ⊢ <;>
    simp +decide [hc, String.length, append_cons_isEmpty, List.dropWhile_cons, isGoSpace]

/-- Normalization skip: for an inequality operator, a reference whose
character list splits into at least three dot-chunks is handed to `NewVersion`
unchanged, with no zero padding, regardless of how many of those chunks are
numeric segments. -/
theorem parseSeg_noNorm (fuel : Nat) (o : String) (f : COp)
    (hop : opfunc o = some f) (hne : o ≠ "" ∧ o ≠ "=" ∧ o ≠ "==")
    (z : String) (hmatch : matchConstraint (o ++ " " ++ z) = some (o, z))
    (hchunks : 3 ≤ (z.toList.splitOn '.').length) :
    parseSegmentF (fuel+1) (o ++ " " ++ z) =
      (newVersion z).map (fun t => [{ op := f, b := t }]) := by
  have hlt : ¬ ((z.toList.splitOn '.').map (fun l => String.mk l)).length < 3 := by
    rw [List.length_map]; omega
  simp only [parseSegmentF, hmatch, hop]
  rw [if_pos hne, if_neg hlt]

/-- One-chunk padding with a prerelease: a dot-free reference `core-pre`
under an inequality operator stores the reference of `core.0.0-pre`. -/
theorem parseSeg_pad1_pre (fuel : Nat) (o : String) (f : COp)
    (hop : opfunc o = some f) (hne : o ≠ "" ∧ o ≠ "=" ∧ o ≠ "==")
    (hm : ∀ (z : String) (c : Char) (zs : List Char), z.toList = c :: zs →
        isGoSpace c = false → matchConstraint (o ++ " " ++ z) = some (o, z))
    (core pre : String) (c : Char) (cs : List Char)
    (hcore : core.toList = c :: cs) (hc : isGoSpace c = false)
    (hcd : ∀ x ∈ core.toList, x ≠ '.' ∧ x ≠ '-')
    (hpd : ∀ x ∈ pre.toList, x ≠ '.' ∧ x ≠ '-') :
    parseSegmentF (fuel+2) (o ++ " " ++ (core ++ "-" ++ pre)) =
      (newVersion (core ++ ".0.0-" ++ pre)).map (fun t => [{ op := f, b := t }]) := by
  have hcore2 : core.data = c :: cs := hcore
  have hpd2 : ∀ x ∈ pre.data, x ≠ '.' ∧ x ≠ '-' := hpd
  have hcd2 : ∀ x ∈ c :: cs, x ≠ '.' ∧ x ≠ '-' := by rw [← hcore2]; exact hcd
  have hz : (core ++ "-" ++ pre).toList = c :: (cs ++ '-' :: pre.data) := by
    show (core.data ++ ['-']) ++ pre.data = c :: (cs ++ '-' :: pre.data)
    rw [hcore2]; simp
  have hmatch := hm (core ++ "-" ++ pre) c _ hz hc
  have hsplit : List.splitOn '.' (c :: (cs ++ '-' :: pre.data)) =
      [c :: (cs ++ '-' :: pre.data)] := by
    refine splitOn_single ?_
    intro x hx
    rcases List.mem_cons.mp hx with h1 | h1
    · rw [h1]; exact (hcd2 c (by simp)).1
    · rcases List.mem_append.mp h1 with h2 | h2
      · exact (hcd2 x (by simp [h2])).1
      · rcases List.mem_cons.mp h2 with h3 | h3
        · rw [h3]; decide
        · exact (hpd2 x h3).1
  have hparts : List.splitOn '-' (c :: (cs ++ '-' :: pre.data)) = [c :: cs, pre.data] := by
    show ((c :: cs) ++ '-' :: pre.data).splitOn '-' = [c :: cs, pre.data]
    rw [splitOn_sep_cons (fun x hx => (hcd2 x hx).2) pre.data,
      splitOn_single (fun x hx => (hpd2 x hx).2)]
  have hdash : (c :: (cs ++ '-' :: pre.data)).contains '-' = true := by simp
  rw [parseSegmentF]
  simp only [hmatch, hop]
  rw [if_pos hne]
  rw [hz, hsplit]
  simp only [List.map_cons, List.map_nil, List.length_cons, List.length_nil, Nat.zero_add,
    List.getLast?_singleton, Option.getD_some, String.toList, hdash, if_true, hparts,
    List.get?]
  have hS : (o ++ " " ++ (⟨c :: cs⟩ : String) ++ ".0.0" ++ ("-" ++ (⟨pre.data⟩ : String))) =
      o ++ " " ++ (core ++ ".0.0-" ++ pre) := by
    apply String.ext
    show (((o.data ++ [' ']) ++ (c :: cs)) ++ ['.', '0', '.', '0']) ++ ('-' :: pre.data) =
      (o.data ++ [' ']) ++ ((core.data ++ ['.', '0', '.', '0', '-']) ++ pre.data)
    rw [hcore2]; simp
  rw [hS]
  have hz2 : (core ++ ".0.0-" ++ pre).toList =
      c :: (cs ++ '.' :: '0' :: '.' :: '0' :: '-' :: pre.data) := by
    show (core.data ++ ['.', '0', '.', '0', '-']) ++ pre.data = _
    rw [hcore2]; simp
  have hmatch2 := hm (core ++ ".0.0-" ++ pre) c _ hz2 hc
  have hchunks2 : 3 ≤ ((core ++ ".0.0-" ++ pre).toList.splitOn '.').length := by
    rw [hz2]
    show 3 ≤ (((c :: cs) ++ '.' :: (['0'] ++ '.' :: ('0' :: '-' :: pre.data))).splitOn
        '.').length
    rw [splitOn_sep_cons (fun x hx => (hcd2 x hx).1),
      splitOn_sep_cons (by decide)]
    have h3 : ∀ x ∈ '0' :: '-' :: pre.data, x ≠ '.' := by
      intro x hx
      rcases List.mem_cons.mp hx with h1 | h1
      · rw [h1]; decide
      · rcases List.mem_cons.mp h1 with h2 | h2
        · rw [h2]; decide
        · exact (hpd2 x h2).1
    rw [splitOn_single h3]
    simp
  exact parseSeg_noNorm fuel o f hop hne _ hmatch2 hchunks2

/-- One-chunk padding without a prerelease: a dot-free, hyphen-free reference
`core` under an inequality operator stores the reference of `core.0.0`. -/
theorem parseSeg_pad1_nopre (fuel : Nat) (o : String) (f : COp)
    (hop : opfunc o = some f) (hne : o ≠ "" ∧ o ≠ "=" ∧ o ≠ "==")
    (hm : ∀ (z : String) (c : Char) (zs : List Char), z.toList = c :: zs →
        isGoSpace c = false → matchConstraint (o ++ " " ++ z) = some (o, z))
    (core : String) (c : Char) (cs : List Char)
    (hcore : core.toList = c :: cs) (hc : isGoSpace c = false)
    (hcd : ∀ x ∈ core.toList, x ≠ '.' ∧ x ≠ '-') :
    parseSegmentF (fuel+2) (o ++ " " ++ core) =
      (newVersion (core ++ ".0.0")).map (fun t => [{ op := f, b := t }]) := by
  have hcore2 : core.data = c :: cs := hcore
  have hcd2 : ∀ x ∈ c :: cs, x ≠ '.' ∧ x ≠ '-' := by rw [← hcore2]; exact hcd
  have hmatch := hm core c cs hcore hc
  have hsplit : List.splitOn '.' (c :: cs) = [c :: cs] :=
    splitOn_single (fun x hx => (hcd2 x hx).1)
  have hdashF : (c :: cs).contains '-' = false := by
    cases hcontains : (c :: cs).contains '-'
    · rfl
    · exfalso
      have hmem : '-' ∈ c :: cs := by simpa using hcontains
      exact (hcd2 '-' hmem).2 rfl
  rw [parseSegmentF]
  simp only [hmatch, hop]
  rw [if_pos hne]
  rw [show core.toList = c :: cs from hcore, hsplit]
  simp only [List.map_cons, List.map_nil, List.length_cons, List.length_nil, Nat.zero_add,
    List.getLast?_singleton, Option.getD_some, String.toList, hdashF, Bool.false_eq_true,
    if_false]
  have hS : (o ++ " " ++ (⟨c :: cs⟩ : String) ++ ".0.0" ++ "") =
      o ++ " " ++ (core ++ ".0.0") := by
    apply String.ext
    show ((((o.data ++ [' ']) ++ (c :: cs)) ++ ['.', '0', '.', '0']) ++ []) =
      (o.data ++ [' ']) ++ (core.data ++ ['.', '0', '.', '0'])
    rw [hcore2]; simp
  rw [hS]
  have hz2 : (core ++ ".0.0").toList = c :: (cs ++ '.' :: '0' :: '.' :: '0' :: []) := by
    show core.data ++ ['.', '0', '.', '0'] = _
    rw [hcore2]; simp
  have hmatch2 := hm (core ++ ".0.0") c _ hz2 hc
  have hchunks2 : 3 ≤ ((core ++ ".0.0").toList.splitOn '.').length := by
    rw [hz2]
    show 3 ≤ (((c :: cs) ++ '.' :: (['0'] ++ '.' :: ['0'])).splitOn '.').length
    rw [splitOn_sep_cons (fun x hx => (hcd2 x hx).1),
      splitOn_sep_cons (by decide), splitOn_single (by decide)]
    simp
  exact parseSeg_noNorm fuel o f hop hne _ hmatch2 hchunks2

/-- Two-chunk padding with a prerelease: a reference `c1.c2-pre` with dot-free
chunks under an inequality operator stores the reference of `c1.c2.0-pre`. -/
theorem parseSeg_pad2_pre (fuel : Nat) (o : String) (f : COp)
    (hop : opfunc o = some f) (hne : o ≠ "" ∧ o ≠ "=" ∧ o ≠ "==")
    (hm : ∀ (z : String) (c : Char) (zs : List Char), z.toList = c :: zs →
        isGoSpace c = false → matchConstraint (o ++ " " ++ z) = some (o, z))
    (c1 c2 pre : String) (c : Char) (cs : List Char)
    (hc1 : c1.toList = c :: cs) (hc : isGoSpace c = false)
    (hd1 : ∀ x ∈ c1.toList, x ≠ '.' ∧ x ≠ '-')
    (hd2 : ∀ x ∈ c2.toList, x ≠ '.' ∧ x ≠ '-')
    (hpd : ∀ x ∈ pre.toList, x ≠ '.' ∧ x ≠ '-') :
    parseSegmentF (fuel+2) (o ++ " " ++ (c1 ++ "." ++ c2 ++ "-" ++ pre)) =
      (newVersion (c1 ++ "." ++ c2 ++ ".0-" ++ pre)).map (fun t => [{ op := f, b := t }]) := by
  have hc12 : c1.data = c :: cs := hc1
  have hd12 : ∀ x ∈ c :: cs, x ≠ '.' ∧ x ≠ '-' := by rw [← hc12]; exact hd1
  have hd22 : ∀ x ∈ c2.data, x ≠ '.' ∧ x ≠ '-' := hd2
  have hpd2 : ∀ x ∈ pre.data, x ≠ '.' ∧ x ≠ '-' := hpd
  have hz : (c1 ++ "." ++ c2 ++ "-" ++ pre).toList =
      c :: (cs ++ '.' :: (c2.data ++ '-' :: pre.data)) := by
    show (((c1.data ++ ['.']) ++ c2.data) ++ ['-']) ++ pre.data = _
    rw [hc12]; simp
  have hmatch := hm (c1 ++ "." ++ c2 ++ "-" ++ pre) c _ hz hc
  have hns2 : ∀ x ∈ c2.data ++ '-' :: pre.data, x ≠ '.' := by
    intro x hx
    rcases List.mem_append.mp hx with h1 | h1
    · exact (hd22 x h1).1
    · rcases List.mem_cons.mp h1 with h2 | h2
      · rw [h2]; decide
      · exact (hpd2 x h2).1
  have hsplit : List.splitOn '.' (c :: (cs ++ '.' :: (c2.data ++ '-' :: pre.data))) =
      [c :: cs, c2.data ++ '-' :: pre.data] := by
    show ((c :: cs) ++ '.' :: (c2.data ++ '-' :: pre.data)).splitOn '.' = _
    rw [splitOn_sep_cons (fun x hx => (hd12 x hx).1), splitOn_single hns2]
  have hparts : List.splitOn '-' (c2.data ++ '-' :: pre.data) = [c2.data, pre.data] := by
    rw [splitOn_sep_cons (fun x hx => (hd22 x hx).2) pre.data,
      splitOn_single (fun x hx => (hpd2 x hx).2)]
  have hdash : (c2.data ++ '-' :: pre.data).contains '-' = true := by simp
  rw [parseSegmentF]
  simp only [hmatch, hop]
  rw [if_pos hne]
  rw [hz, hsplit]
  simp only [List.map_cons, List.map_nil, List.length_cons, List.length_nil, Nat.zero_add,
    List.getLast?_cons_cons, List.getLast?_singleton, Option.getD_some, String.toList,
    hdash, if_true, hparts, List.get?]
  have hS : (o ++ " " ++ (⟨c :: cs⟩ : String) ++ "." ++ (⟨c2.data⟩ : String) ++ ".0" ++
        ("-" ++ (⟨pre.data⟩ : String))) =
      o ++ " " ++ (c1 ++ "." ++ c2 ++ ".0-" ++ pre) := by
    apply String.ext
    show (((((o.data ++ [' ']) ++ (c :: cs)) ++ ['.']) ++ c2.data) ++ ['.', '0']) ++
        ('-' :: pre.data) =
      (o.data ++ [' ']) ++ ((((c1.data ++ ['.']) ++ c2.data) ++ ['.', '0', '-']) ++ pre.data)
    rw [hc12]; simp
  rw [hS]
  have hz2 : (c1 ++ "." ++ c2 ++ ".0-" ++ pre).toList =
      c :: (cs ++ '.' :: (c2.data ++ '.' :: '0' :: '-' :: pre.data)) := by
    show (((c1.data ++ ['.']) ++ c2.data) ++ ['.', '0', '-']) ++ pre.data = _
    rw [hc12]; simp
  have hmatch2 := hm (c1 ++ "." ++ c2 ++ ".0-" ++ pre) c _ hz2 hc
  have hchunks2 : 3 ≤ ((c1 ++ "." ++ c2 ++ ".0-" ++ pre).toList.splitOn '.').length := by
    rw [hz2]
    show 3 ≤ (((c :: cs) ++ '.' :: (c2.data ++ '.' :: ('0' :: '-' :: pre.data))).splitOn
        '.').length
    have h3 : ∀ x ∈ '0' :: '-' :: pre.data, x ≠ '.' := by
      intro x hx
      rcases List.mem_cons.mp hx with h1 | h1
      · rw [h1]; decide
      · rcases List.mem_cons.mp h1 with h2 | h2
        · rw [h2]; decide
        · exact (hpd2 x h2).1
    rw [splitOn_sep_cons (fun x hx => (hd12 x hx).1),
      splitOn_sep_cons (fun x hx => (hd22 x hx).1), splitOn_single h3]
    simp
  exact parseSeg_noNorm fuel o f hop hne _ hmatch2 hchunks2

/-- Two-chunk padding without a prerelease: a reference `c1.c2` with dot-free,
hyphen-free chunks under an inequality operator stores the reference of
`c1.c2.0`. -/
theorem parseSeg_pad2_nopre (fuel : Nat) (o : String) (f : COp)
    (hop : opfunc o = some f) (hne : o ≠ "" ∧ o ≠ "=" ∧ o ≠ "==")
    (hm : ∀ (z : String) (c : Char) (zs : List Char), z.toList = c :: zs →
        isGoSpace c = false → matchConstraint (o ++ " " ++ z) = some (o, z))
    (c1 c2 : String) (c : Char) (cs : List Char)
    (hc1 : c1.toList = c :: cs) (hc : isGoSpace c = false)
    (hd1 : ∀ x ∈ c1.toList, x ≠ '.' ∧ x ≠ '-')
    (hd2 : ∀ x ∈ c2.toList, x ≠ '.' ∧ x ≠ '-') :
    parseSegmentF (fuel+2) (o ++ " " ++ (c1 ++ "." ++ c2)) =
      (newVersion (c1 ++ "." ++ c2 ++ ".0")).map (fun t => [{ op := f, b := t }]) := by
  have hc12 : c1.data = c :: cs := hc1
  have hd12 : ∀ x ∈ c :: cs, x ≠ '.' ∧ x ≠ '-' := by rw [← hc12]; exact hd1
  have hd22 : ∀ x ∈ c2.data, x ≠ '.' ∧ x ≠ '-' := hd2
  have hz : (c1 ++ "." ++ c2).toList = c :: (cs ++ '.' :: c2.data) := by
    show (c1.data ++ ['.']) ++ c2.data = _
    rw [hc12]; simp
  have hmatch := hm (c1 ++ "." ++ c2) c _ hz hc
  have hsplit : List.splitOn '.' (c :: (cs ++ '.' :: c2.data)) = [c :: cs, c2.data] := by
    show ((c :: cs) ++ '.' :: c2.data).splitOn '.' = _
    rw [splitOn_sep_cons (fun x hx => (hd12 x hx).1),
      splitOn_single (fun x hx => (hd22 x hx).1)]
  have hdashF : c2.data.contains '-' = false := by
    cases hcontains : c2.data.contains '-'
    · rfl
    · exfalso
      have hmem : '-' ∈ c2.data := by simpa using hcontains
      exact (hd22 '-' hmem).2 rfl
  rw [parseSegmentF]
  simp only [hmatch, hop]
  rw [if_pos hne]
  rw [hz, hsplit]
  simp only [List.map_cons, List.map_nil, List.length_cons, List.length_nil, Nat.zero_add,
    List.getLast?_cons_cons, List.getLast?_singleton, Option.getD_some, String.toList,
    hdashF, Bool.false_eq_true, if_false, List.get?]
  have hS : (o ++ " " ++ (⟨c :: cs⟩ : String) ++ "." ++ (⟨c2.data⟩ : String) ++ ".0" ++ "") =
      o ++ " " ++ (c1 ++ "." ++ c2 ++ ".0") := by
    apply String.ext
    show ((((((o.data ++ [' ']) ++ (c :: cs)) ++ ['.']) ++ c2.data) ++ ['.', '0']) ++ []) =
      (o.data ++ [' ']) ++ (((c1.data ++ ['.']) ++ c2.data) ++ ['.', '0'])
    rw [hc12]; simp
  rw [hS]
  have hz2 : (c1 ++ "." ++ c2 ++ ".0").toList =
      c :: (cs ++ '.' :: (c2.data ++ '.' :: '0' :: [])) := by
    show ((c1.data ++ ['.']) ++ c2.data) ++ ['.', '0'] = _
    rw [hc12]; simp
  have hmatch2 := hm (c1 ++ "." ++ c2 ++ ".0") c _ hz2 hc
  have hchunks2 : 3 ≤ ((c1 ++ "." ++ c2 ++ ".0").toList.splitOn '.').length := by
    rw [hz2]
    show 3 ≤ (((c :: cs) ++ '.' :: (c2.data ++ '.' :: ['0'])).splitOn '.').length
    rw [splitOn_sep_cons (fun x hx => (hd12 x hx).1),
      splitOn_sep_cons (fun x hx => (hd22 x hx).1), splitOn_single (by decide)]
    simp
  exact parseSeg_noNorm fuel o f hop hne _ hmatch2 hchunks2

/-- Claim C6 (counterexample): the constraint ">= 1-rc.1" does not store the
same reference as ">= 1.0.0-rc.1".  The hyphen sits in the first dot-chunk, so
the padder never detects the prerelease and instead appends ".0" to it: the
stored reference keeps one numeric segment and prerelease "rc.1.0", which also
compares differently from v1.0.0-rc.1. -/
theorem c6_counterexample :
    storedRefs ">= 1-rc.1" =
      some [{ seg0 := 1, seg1 := 0, seg2 := 0, numSegments := 1, pre := "rc.1.0",
              isK0s := false, k0s := 0, meta := "" }] ∧
    storedRefs ">= 1.0.0-rc.1" =
      some [{ seg0 := 1, seg1 := 0, seg2 := 0, numSegments := 3, pre := "rc.1",
              isK0s := false, k0s := 0, meta := "" }] ∧
    storedRefs ">= 1-rc.1" ≠ storedRefs ">= 1.0.0-rc.1" ∧
    compareV
      { seg0 := 1, seg1 := 0, seg2 := 0, numSegments := 1, pre := "rc.1.0",
        isK0s := false, k0s := 0, meta := "" }
      { seg0 := 1, seg1 := 0, seg2 := 0, numSegments := 3, pre := "rc.1",
        isK0s := false, k0s := 0, meta := "" } ≠ 0 := by
  refine ⟨by decide, by decide, by decide, by decide⟩

/-- Claim C6 (amended): the two-digit normalization of `parseSegment` is keyed
to the number of dot-separated chunks of the whole reference (prerelease
included), not to its numeric segments.  For every inequality operator: a
reference with at least three dot-chunks is stored as parsed with no padding,
even when it has fewer than three numeric segments (">= 1.0-rc.1" stores the
unpadded two-segment reference with prerelease "rc.1"); a one-chunk reference
`core-pre` whose pieces contain no dot or hyphen stores the reference of
`core.0.0-pre` and a bare `core` that of `core.0.0`; a two-chunk reference
`c1.c2-pre` stores the reference of `c1.c2.0-pre` and `c1.c2` that of
`c1.c2.0`, so a dot-free trailing prerelease is preserved across the padding;
and ">= 1-rc.1", whose dot inside the prerelease makes it two chunks, stores
the reference of "1-rc.1.0", not that of ">= 1.0.0-rc.1". -/
theorem c6_amended :
    (∀ o : String, (o = ">=" ∨ o = ">" ∨ o = "<=" ∨ o = "<" ∨ o = "!=") →
      ∀ f : COp, opfunc o = some f →
      (∀ (z : String) (c : Char) (zs : List Char), z.toList = c :: zs →
          isGoSpace c = false → 3 ≤ (z.toList.splitOn '.').length →
          parseSegmentF 3 (o ++ " " ++ z) =
            (newVersion z).map (fun t => [{ op := f, b := t }])) ∧
      (∀ (core pre : String) (c : Char) (cs : List Char), core.toList = c :: cs →
          isGoSpace c = false →
          (∀ x ∈ core.toList, x ≠ '.' ∧ x ≠ '-') →
          (∀ x ∈ pre.toList, x ≠ '.' ∧ x ≠ '-') →
          parseSegmentF 3 (o ++ " " ++ (core ++ "-" ++ pre)) =
            (newVersion (core ++ ".0.0-" ++ pre)).map (fun t => [{ op := f, b := t }]) ∧
          parseSegmentF 3 (o ++ " " ++ core) =
            (newVersion (core ++ ".0.0")).map (fun t => [{ op := f, b := t }])) ∧
      (∀ (c1 c2 pre : String) (c : Char) (cs : List Char), c1.toList = c :: cs →
          isGoSpace c = false →
          (∀ x ∈ c1.toList, x ≠ '.' ∧ x ≠ '-') →
          (∀ x ∈ c2.toList, x ≠ '.' ∧ x ≠ '-') →
          (∀ x ∈ pre.toList, x ≠ '.' ∧ x ≠ '-') →
          parseSegmentF 3 (o ++ " " ++ (c1 ++ "." ++ c2 ++ "-" ++ pre)) =
            (newVersion (c1 ++ "." ++ c2 ++ ".0-" ++ pre)).map
              (fun t => [{ op := f, b := t }]) ∧
          parseSegmentF 3 (o ++ " " ++ (c1 ++ "." ++ c2)) =
            (newVersion (c1 ++ "." ++ c2 ++ ".0")).map (fun t => [{ op := f, b := t }]))) ∧
    storedRefs ">= 1.0-rc.1" = (newVersion "1.0-rc.1").map (fun v => [v]) ∧
    (newVersion "1.0-rc.1").map (fun v => (v.numSegments, v.pre)) = some (2, "rc.1") ∧
    storedRefs ">= 1-rc.1" = (newVersion "1-rc.1.0").map (fun v => [v]) ∧
    storedRefs ">= 1-rc1" = (newVersion "1.0.0-rc1").map (fun v => [v]) ∧
    storedRefs ">= 1.2" = (newVersion "1.2.0").map (fun v => [v]) ∧
    storedRefs "< 1" = (newVersion "1.0.0").map (fun v => [v]) ∧
    storedRefs ">= 1.0-a" = (newVersion "1.0.0-a").map (fun v => [v]) := by
  refine ⟨?_, by decide, by decide, by decide, by decide, by decide, by decide, by decide⟩
  intro o ho f hop
  have hne : o ≠ "" ∧ o ≠ "=" ∧ o ≠ "==" := by
    rcases ho with h | h | h | h | h <;> rw [h] <;> exact ⟨by decide, by decide, by decide⟩
  have hm : ∀ (z : String) (c : Char) (zs : List Char), z.toList = c :: zs →
      isGoSpace c = false → matchConstraint (o ++ " " ++ z) = some (o, z) :=
    fun z c zs hz hc => matchConstraint_op o ho z c zs hz hc
  refine ⟨?_, ?_, ?_⟩
  · intro z c zs hz hc hchunks
    exact parseSeg_noNorm 2 o f hop hne z (hm z c zs hz hc) hchunks
  · intro core pre c cs hcore hc hcd hpd
    exact ⟨parseSeg_pad1_pre 1 o f hop hne hm core pre c cs hcore hc hcd hpd,
      parseSeg_pad1_nopre 1 o f hop hne hm core c cs hcore hc hcd⟩
  · intro c1 c2 pre c cs hc1 hc hd1 hd2 hpd
    exact ⟨parseSeg_pad2_pre 1 o f hop hne hm c1 c2 pre c cs hc1 hc hd1 hd2 hpd,
      parseSeg_pad2_nopre 1 o f hop hne hm c1 c2 c cs hc1 hc hd1 hd2⟩

/-- Witness for the amended C6 statement: the universal padding and
no-padding clauses applied at concrete operators and references. -/
theorem c6_amended_witness :
    parseSegmentF 3 (">=" ++ " " ++ ("1" ++ "-" ++ "rc1")) =
      (newVersion ("1" ++ ".0.0-" ++ "rc1")).map (fun t => [{ op := COp.gte, b := t }]) ∧
    parseSegmentF 3 ("<" ++ " " ++ ("1" ++ "." ++ "0" ++ "-" ++ "beta")) =
      (newVersion ("1" ++ "." ++ "0" ++ ".0-" ++ "beta")).map
        (fun t => [{ op := COp.lt, b := t }]) ∧
    parseSegmentF 3 (">=" ++ " " ++ "1.0-rc.1") =
      (newVersion "1.0-rc.1").map (fun t => [{ op := COp.gte, b := t }]) := by
  refine ⟨?_, ?_, ?_⟩
  · exact ((c6_amended.1 ">=" (Or.inl rfl) COp.gte rfl).2.1 "1" "rc1" '1' [] rfl
      (by decide) (by decide) (by decide)).1
  · exact ((c6_amended.1 "<" (by simp) COp.lt rfl).2.2 "1" "0" "beta" '1' [] rfl
      (by decide) (by decide) (by decide) (by decide)).1
  · exact (c6_amended.1 ">=" (Or.inl rfl) COp.gte rfl).1 "1.0-rc.1" '1'
      ['.', '0', '-', 'r', 'c', '.', '1'] rfl (by decide) (by decide)

/-- Claim C7 (counterexample): Check on the constraint "= 1.0" returns true,
not false, for the candidate "1.0.0", because the equality operator evaluates
through Compare, which zero-pads the stored two-segment reference. -/
theorem c7_counterexample :
    (newConstraint "= 1.0").map (fun segs => checkStringSegs segs "1.0.0") = some true := by
  decide

/-- Claim C7 (amended): equality-operator constraints do not normalize their
stored reference ("= 1.0" stores the two-segment reference rendering as
"v1.0"), but Check compares candidates via the zero-padding Compare, so
"= 1.0" is satisfied by "1.0.0" as well as "1.0", and not by "1.0.1". -/
theorem c7_amended :
    storedRefs "= 1.0" = (newVersion "1.0").map (fun v => [v]) ∧
    (newVersion "1.0").map Version.numSegments = some 2 ∧
    (newVersion "1.0").map render = some "v1.0" ∧
    (newConstraint "= 1.0").map (fun segs => checkStringSegs segs "1.0.0") = some true ∧
    (newConstraint "= 1.0").map (fun segs => checkStringSegs segs "1.0") = some true ∧
    (newConstraint "= 1.0").map (fun segs => checkStringSegs segs "1.0.1") = some false := by
  refine ⟨by decide, by decide, by decide, by decide, by decide, by decide⟩

/-- Modelled from the spec: the operator set of the current constraint
evaluator, whose implementation is not among the sources (only its tests and
README are); spec section 4.3 lists strict, loose, equality and inequality
operators. -/
inductive LOp
  | lt
  | llt
  | lte
  | llte
  | gt
  | lgt
  | gte
  | lgte
  | eq
  | neq
deriving DecidableEq, Repr

/-- Modelled from the spec: operator spellings with their operators, ordered
so that a prefix search finds the longest spelling first. -/
def looseOpsTable : List (String × LOp) :=
  [("<<=", LOp.llte), (">>=", LOp.lgte), ("<<", LOp.llt), (">>", LOp.lgt),
   ("<=", LOp.lte), (">=", LOp.gte), ("==", LOp.eq), ("!=", LOp.neq),
   ("<", LOp.lt), (">", LOp.gt), ("=", LOp.eq)]

/-- Modelled from the spec: the four strict operators are subject to the
prerelease gate; loose operators, equality and inequality are not. -/
def looseIsStrict : LOp → Bool
  | LOp.lt => true
  | LOp.lte => true
  | LOp.gt => true
  | LOp.gte => true
  | _ => false

/-- Modelled from the spec: the comparison each operator performs on the
result of Compare(candidate, reference). -/
def looseOpRel (op : LOp) (c : Int) : Bool :=
  match op with
  | LOp.lt => c == -1
  | LOp.llt => c == -1
  | LOp.lte => decide (c ≤ 0)
  | LOp.llte => decide (c ≤ 0)
  | LOp.gt => c == 1
  | LOp.lgt => c == 1
  | LOp.gte => decide (0 ≤ c)
  | LOp.lgte => decide (0 ≤ c)
  | LOp.eq => c == 0
  | LOp.neq => ! (c == 0)

/-- Modelled from the spec: zero-pads a numeric core with fewer than three
dot-separated segments. -/
def zeroPad (core : List Char) : List Char :=
  match (core.splitOn '.').length with
  | 1 => core ++ ".0.0".toList
  | 2 => core ++ ".0".toList
  | _ => core

/-- Modelled from the spec: parsing of one constraint segment by the current
evaluator: tolerate whitespace, take the longest operator spelling (omitted
operator means equality), and for non-equality operators zero-pad a reference
with fewer than three numeric segments, preserving a trailing prerelease
across the padding; the reference is parsed by the ordinary version parser. -/
def looseParseSegment (s : String) : Option (LOp × Version) :=
  let t0 := s.toList.dropWhile isGoSpace
  let t := (t0.reverse.dropWhile isGoSpace).reverse
  let hit := (looseOpsTable.find? (fun p => p.1.toList.isPrefixOf t)).getD ("", LOp.eq)
  let rest := (t.drop hit.1.length).dropWhile isGoSpace
  if rest.isEmpty then none
  else
    let refChars :=
      if hit.2 = LOp.eq then rest
      else
        match rest.findIdx? (fun c => c = '-') with
        | some i => zeroPad (rest.take i) ++ rest.drop i
        | none => zeroPad rest
    (newVersion (String.mk refChars)).map (fun v => (hit.2, v))

/-- Modelled from the spec: constraint construction, splitting on commas with
all segments required to parse. -/
def looseNewConstraint (s : String) : Option (List (LOp × Version)) :=
  ((s.toList.splitOn ',').map (fun l => String.mk l)).foldl
    (fun acc p => do
      let segs ← acc
      let sg ← looseParseSegment p
      pure (segs ++ [sg]))
    (some [])

/-- Modelled from the spec: one segment accepts a candidate when the
prerelease gate (for strict operators only) does not fire and the operator
relation holds of Compare(candidate, reference). -/
def looseCheckSeg (c : LOp × Version) (v : Version) : Bool :=
  if looseIsStrict c.1 ∧ c.2.pre = "" ∧ v.pre ≠ "" then false
  else looseOpRel c.1 (compareV v c.2)

/-- Modelled from the spec: a constraint accepts a candidate when every
segment does. -/
def looseCheck (segs : List (LOp × Version)) (v : Version) : Bool :=
  segs.all (fun c => looseCheckSeg c v)

/-- Modelled from the spec: checking a candidate given as a string; parse
failure is false. -/
def looseCheckString (cs v : String) : Bool :=
  match looseNewConstraint cs, newVersion v with
  | some segs, some vv => looseCheck segs vv
  | _, _ => false

/-- Reference version v1.0.0 as stored by the constraint parsers. -/
def ref100 : Version :=
  { seg0 := 1, seg1 := 0, seg2 := 0, numSegments := 3, pre := "", isK0s := false,
    k0s := 0, meta := "" }

/-- Claim C4: the current constraint evaluator accepts the loose operators
<<, <<=, >> and >>=, and checks them without the prerelease gate, so that a
prerelease can satisfy a stable reference; in particular "<< 1.0.0" is
satisfied by "1.0.0-alpha.1". -/
theorem c4_loose_operators_ungated :
    looseNewConstraint "<< 1.0.0" = some [(LOp.llt, ref100)] ∧
    looseNewConstraint "<<= 1.0.0" = some [(LOp.llte, ref100)] ∧
    looseNewConstraint ">> 1.0.0" = some [(LOp.lgt, ref100)] ∧
    looseNewConstraint ">>= 1.0.0" = some [(LOp.lgte, ref100)] ∧
    (∀ v : Version, looseCheck [(LOp.llt, ref100)] v = (compareV v ref100 == -1)) ∧
    (∀ v : Version, looseCheck [(LOp.llte, ref100)] v = decide (compareV v ref100 ≤ 0)) ∧
    (∀ v : Version, looseCheck [(LOp.lgt, ref100)] v = (compareV v ref100 == 1)) ∧
    (∀ v : Version, looseCheck [(LOp.lgte, ref100)] v = decide (0 ≤ compareV v ref100)) ∧
    looseCheckString "<< 1.0.0" "1.0.0-alpha.1" = true := by
  refine ⟨by decide, by decide, by decide, by decide, ?_, ?_, ?_, ?_, by decide⟩ <;>
    intro v <;> simp [looseCheck, looseCheckSeg, looseIsStrict, looseOpRel]

/-- Claim C5: a constraint "!= r" accepts a candidate exactly when
Compare(candidate, r) is nonzero, with no prerelease gate: a prerelease
candidate can differ from (and thus satisfy) a stable reference. -/
theorem c5_neq_exactly_compare_nonzero :
    looseNewConstraint "!= 1.0.0" = some [(LOp.neq, ref100)] ∧
    (∀ v : Version, looseCheck [(LOp.neq, ref100)] v = ! (compareV v ref100 == 0)) ∧
    looseCheckString "!= 1.0.0" "1.0.1-alpha.1" = true ∧
    looseCheckString "!= 1.0.0" "1.0.0-alpha.1" = true ∧
    looseCheckString "!= 1.0.0" "1.0.0" = false := by
  refine ⟨by decide, ?_, by decide, by decide, by decide⟩
  intro v
  simp [looseCheck, looseCheckSeg, looseIsStrict, looseOpRel]

/-- Outcome of `newCollectionFromCache`: an I/O failure, a cache miss (either
no file, with zero modification time, or an empty file, with its real
modification time), or a populated collection with its modification time.
Time is abstracted to a natural number. -/
inductive CacheRead
  | ioError
  | miss (modTime : Nat)
  | ok (versions : List Version) (modTime : Nat)
deriving DecidableEq, Repr

/-- Cached collection of a cache read; empty on miss, as in loadAll. -/
def CacheRead.versions : CacheRead → List Version
  | CacheRead.ok vs _ => vs
  | _ => []

/-- Modification time of a cache read; zero when the file is absent. -/
def CacheRead.modTime : CacheRead → Nat
  | CacheRead.miss t => t
  | CacheRead.ok _ t => t
  | CacheRead.ioError => 0

/-- Whether the cache read was `ErrCacheMiss`. -/
def CacheRead.isMiss : CacheRead → Bool
  | CacheRead.miss _ => true
  | _ => false

/-- Go map write `m[k] = v` on an association list: replaces the binding when
the key exists, otherwise appends it. -/
def upsert (m : List (String × Version)) (k : String) (v : Version) :
    List (String × Version) :=
  if m.any (fun p => p.1 = k) then m.map (fun p => if p.1 = k then (k, v) else p)
  else m ++ [(k, v)]

/-- Embedding of the known-version map built by loadAll from the cached
collection, keyed by canonical rendering. -/
def knownOf (cached : List Version) : List (String × Version) :=
  cached.foldl (fun m v => upsert m (render v) v) []

/-- Embedding of `collectionFromMap`: the map values sorted ascending by
Compare.  Go sorts with an unstable sort; the deterministic insertion sort
used here picks one order consistent with the comparator, and no claim
depends on the order of Compare-equal elements. -/
def collectionFromMap (m : List (String × Version)) : List Version :=
  List.insertionSort (fun a b => compareV a b ≤ 0) (m.map (fun p => p.2))

/-- Collection load result: the versions and the used-fallback flag. -/
structure LoadResult where
  versions : List Version
  usedFallback : Bool
deriving DecidableEq, Repr

/-- Errors a load can surface: a cache read failure, a tag-source failure, or
a cache write failure. -/
inductive LoadErr
  | cacheIO
  | fetchFailed
deriving DecidableEq, Repr

/-- Outcome of a load: the returned result or error, plus the content written
to the cache file (`none` when the file is untouched). -/
structure LoadOutcome where
  result : Except LoadErr LoadResult
  wrote : Option (List Version)
deriving Repr

/-- Embedding of `loadAll` (collection.go lines 146-197) with effects made
explicit: `cache` is the prior `newCollectionFromCache` outcome, `now` and
`maxAge` stand for the clock (`time.Since(modTime) > CacheMaxAge` becomes
`now - modTime > maxAge`), `fetch` is the `TagsSince` outcome, and cache
writes always succeed, recorded in `wrote` sorted descending as `writeCache`
does. -/
def loadAllM (cache : CacheRead) (force : Bool) (now maxAge : Nat)
    (fetch : Except Unit (List String)) : LoadOutcome :=
  match cache with
  | CacheRead.ioError => { result := Except.error LoadErr.cacheIO, wrote := none }
  | _ =>
    let known := knownOf cache.versions
    let cacheStale :=
      force || cache.isMiss || (cache.modTime == 0) || decide (now - cache.modTime > maxAge)
    if cacheStale = false then
      { result := Except.ok { versions := collectionFromMap known, usedFallback := false },
        wrote := none }
    else
      match fetch with
      | Except.error _ =>
        if force || (known.length == 0) then
          { result := Except.error LoadErr.fetchFailed, wrote := none }
        else
          { result := Except.ok { versions := collectionFromMap known, usedFallback := true },
            wrote := none }
      | Except.ok tags =>
        let st := tags.foldl
          (fun (st : List (String × Version) × Bool) tag =>
            match newVersion tag with
            | none => st
            | some version =>
              let k := render version
              if st.1.any (fun p => p.1 = k) then st
              else (st.1 ++ [(k, version)], true))
          (known, false)
        let result := collectionFromMap st.1
        { result := Except.ok { versions := result, usedFallback := false },
          wrote :=
            if st.2 || cache.isMiss || force then
              some ((List.insertionSort (fun a b => compareV a b ≤ 0) result).reverse)
            else none }

/-- Entries of an upsert come from the old map or are the new binding. -/
theorem upsert_subset {m : List (String × Version)} {k : String} {v : Version} :
    ∀ p ∈ upsert m k v, p ∈ m ∨ p = (k, v) := by
  intro p hp
  unfold upsert at hp
  split at hp
  · rcases List.mem_map.mp hp with ⟨q, hq, he⟩
    by_cases hqk : q.1 = k
    · rw [if_pos hqk] at he
      exact Or.inr he.symm
    · rw [if_neg hqk] at he
      exact Or.inl (he ▸ hq)
  · rcases List.mem_append.mp hp with h | h
    · exact Or.inl h
    · exact Or.inr (List.mem_singleton.mp h)

/-- An upsert makes its key present. -/
theorem upsert_key_mem (m : List (String × Version)) (k : String) (v : Version) :
    ∃ p ∈ upsert m k v, p.1 = k := by
  unfold upsert
  split
  · rename_i h
    rcases List.any_eq_true.mp h with ⟨q, hq, hqk⟩
    refine ⟨(k, v), List.mem_map.mpr ⟨q, hq, ?_⟩, rfl⟩
    rw [if_pos (by simpa using hqk)]
  · exact ⟨(k, v), List.mem_append.mpr (Or.inr (List.mem_singleton.mpr rfl)), rfl⟩

/-- An upsert preserves the presence of every key. -/
theorem upsert_key_preserved {m : List (String × Version)} {k0 : String}
    (k : String) (v : Version) (h : ∃ p ∈ m, p.1 = k0) :
    ∃ p ∈ upsert m k v, p.1 = k0 := by
  rcases h with ⟨q, hq, hqk⟩
  unfold upsert
  split
  · by_cases hqk2 : q.1 = k
    · exact ⟨(k, v), List.mem_map.mpr ⟨q, hq, by rw [if_pos hqk2]⟩, by rw [← hqk2, hqk]⟩
    · exact ⟨q, List.mem_map.mpr ⟨q, hq, by rw [if_neg hqk2]⟩, hqk⟩
  · exact ⟨q, List.mem_append.mpr (Or.inl hq), hqk⟩

/-- The known-map fold preserves the presence of every key. -/
theorem knownFold_key_preserved (cached : List Version) :
    ∀ (m0 : List (String × Version)) (k0 : String), (∃ p ∈ m0, p.1 = k0) →
      ∃ p ∈ cached.foldl (fun m v => upsert m (render v) v) m0, p.1 = k0 := by
  induction cached with
  | nil => intro m0 k0 h; exact h
  | cons c rest ih =>
      intro m0 k0 h
      exact ih (upsert m0 (render c) c) k0 (upsert_key_preserved (render c) c h)

/-- Entries of the known map are keyed by their value's rendering and hold
cached versions (up to the starting accumulator). -/
theorem knownFold_inv (cached : List Version) :
    ∀ (m0 : List (String × Version)),
      ∀ p ∈ cached.foldl (fun m v => upsert m (render v) v) m0,
        p ∈ m0 ∨ (p.1 = render p.2 ∧ p.2 ∈ cached) := by
  induction cached with
  | nil => intro m0 p hp; exact Or.inl hp
  | cons c rest ih =>
      intro m0 p hp
      rcases ih (upsert m0 (render c) c) p hp with h | h
      · rcases upsert_subset p h with h2 | h2
        · exact Or.inl h2
        · refine Or.inr ⟨by rw [h2], by rw [h2]; exact List.mem_cons_self c rest⟩
      · exact Or.inr ⟨h.1, List.mem_cons_of_mem c h.2⟩

/-- Every cached version's rendering is a key of the known map. -/
theorem knownOf_covers (cached : List Version) :
    ∀ d ∈ cached, ∃ p ∈ knownOf cached, p.1 = render d := by
  unfold knownOf
  suffices h : ∀ (m0 : List (String × Version)) (d : Version), d ∈ cached →
      ∃ p ∈ cached.foldl (fun m v => upsert m (render v) v) m0, p.1 = render d by
    intro d hd
    exact h [] d hd
  induction cached with
  | nil => intro m0 d hd; cases hd
  | cons c rest ih =>
      intro m0 d hd
      rcases List.mem_cons.mp hd with h | h
      · subst h
        exact knownFold_key_preserved rest (upsert m0 (render d) d) (render d)
          (upsert_key_mem m0 (render d) d)
      · exact ih (upsert m0 (render c) c) d h

/-- The known map of a non-empty cached collection is non-empty. -/
theorem knownOf_ne_nil {cached : List Version} (h : cached ≠ []) : knownOf cached ≠ [] := by
  rcases cached with _ | ⟨c, rest⟩
  · exact absurd rfl h
  · rcases knownOf_covers (c :: rest) c (List.mem_cons_self c rest) with ⟨p, hp, _⟩
    intro he
    rw [he] at hp
    cases hp

/-- Membership in a sorted collection is membership in the map values. -/
theorem mem_collectionFromMap (m : List (String × Version)) (v : Version) :
    v ∈ collectionFromMap m ↔ v ∈ m.map (fun p => p.2) :=
  (List.perm_insertionSort (fun a b => compareV a b ≤ 0) (m.map (fun p => p.2))).mem_iff

/-- Reduction of a stale load with failing fetch on a missed cache: the known
map is empty, so the error is always surfaced. -/
theorem loadAllM_miss_fetchfail (t : Nat) (force : Bool) (now maxAge : Nat) :
    loadAllM (CacheRead.miss t) force now maxAge (Except.error ()) =
      { result := Except.error LoadErr.fetchFailed, wrote := none } := by
  simp [loadAllM, CacheRead.versions, CacheRead.isMiss, CacheRead.modTime, knownOf]

/-- Reduction of a stale load with failing fetch on a populated cache read. -/
theorem loadAllM_ok_fetchfail (vs : List Version) (t : Nat) (force : Bool) (now maxAge : Nat)
    (hst : (force || (t == 0) || decide (now - t > maxAge)) = true) :
    loadAllM (CacheRead.ok vs t) force now maxAge (Except.error ()) =
      if force || ((knownOf vs).length == 0) then
        { result := Except.error LoadErr.fetchFailed, wrote := none }
      else
        { result :=
            Except.ok { versions := collectionFromMap (knownOf vs), usedFallback := true },
          wrote := none } := by
  simp only [loadAllM, CacheRead.versions, CacheRead.isMiss, CacheRead.modTime, Bool.or_false]
  rw [hst]
  rw [if_neg (by simp : ¬ ((true : Bool) = false))]

/-- Claim C9: when a load finds the cache stale and the tag-source fetch
fails, the error is surfaced if the refresh was forced or the cached data is
empty or missing; otherwise the previously cached collection (same canonical
strings) is returned with the used-fallback flag set and the cache file is
left unmodified. -/
theorem c9_stale_fetch_failure (cache : CacheRead) (force : Bool) (now maxAge : Nat)
    (hio : cache ≠ CacheRead.ioError)
    (hstale : force = true ∨ cache.isMiss = true ∨ cache.modTime = 0 ∨
      now - cache.modTime > maxAge) :
    ((force = true ∨ cache.versions = []) →
      loadAllM cache force now maxAge (Except.error ()) =
        { result := Except.error LoadErr.fetchFailed, wrote := none }) ∧
    (force = false → cache.versions ≠ [] →
      ∃ res, loadAllM cache force now maxAge (Except.error ()) =
          { result := Except.ok res, wrote := none } ∧
        res.usedFallback = true ∧
        (∀ s : String, s ∈ res.versions.map render ↔ s ∈ cache.versions.map render)) := by
  constructor
  · rintro (hf | hevs)
    · cases cache with
      | ioError => exact absurd rfl hio
      | miss t => exact loadAllM_miss_fetchfail t force now maxAge
      | ok vs t =>
          rw [loadAllM_ok_fetchfail vs t force now maxAge (by simp [hf])]
          rw [if_pos (by simp [hf])]
    · cases cache with
      | ioError => exact absurd rfl hio
      | miss t => exact loadAllM_miss_fetchfail t force now maxAge
      | ok vs t =>
          have hevs2 : vs = [] := hevs
          subst hevs2
          have hst : (force || ((0 : Nat) == 0) || decide (now - (0:Nat) > maxAge)) = true ∨
              (force || ((t : Nat) == 0) || decide (now - t > maxAge)) = true := by
            rcases hstale with h | h | h | h
            · exact Or.inr (by simp [h])
            · exact absurd h (by simp [CacheRead.isMiss])
            · have ht : t = 0 := h
              exact Or.inr (by simp [ht])
            · exact Or.inr (by simp [show now - t > maxAge from h])
          rcases hst with h | h
          · rw [loadAllM_ok_fetchfail [] t force now maxAge (by
              rcases hstale with h2 | h2 | h2 | h2
              · simp [h2]
              · exact absurd h2 (by simp [CacheRead.isMiss])
              · simp [show t = 0 from h2]
              · simp [show now - t > maxAge from h2])]
            rw [if_pos (by simp [knownOf])]
          · rw [loadAllM_ok_fetchfail [] t force now maxAge h]
            rw [if_pos (by simp [knownOf])]
  · intro hf hne
    cases cache with
    | ioError => exact absurd rfl hio
    | miss t => exact absurd rfl hne
    | ok vs t =>
        have hne2 : vs ≠ [] := hne
        have hknown : knownOf vs ≠ [] := knownOf_ne_nil hne2
        have hlen : ((knownOf vs).length == 0) = false := by
          refine beq_eq_false_iff_ne.mpr ?_
          simpa [List.length_eq_zero] using hknown
        have hst : (force || ((t : Nat) == 0) || decide (now - t > maxAge)) = true := by
          rcases hstale with h | h | h | h
          · simp [h]
          · exact absurd h (by simp [CacheRead.isMiss])
          · simp [show t = 0 from h]
          · simp [show now - t > maxAge from h]
        refine ⟨{ versions := collectionFromMap (knownOf vs), usedFallback := true }, ?_, rfl, ?_⟩
        · rw [loadAllM_ok_fetchfail vs t force now maxAge hst]
          rw [if_neg (by simp [hf, hlen])]
        · intro s
          simp only [List.mem_map]
          constructor
          · rintro ⟨v, hv, rfl⟩
            rw [mem_collectionFromMap] at hv
            rcases List.mem_map.mp hv with ⟨p, hp, rfl⟩
            rcases knownFold_inv vs [] p hp with h | h
            · cases h
            · exact ⟨p.2, h.2, rfl⟩
          · rintro ⟨d, hd, rfl⟩
            rcases knownOf_covers vs d hd with ⟨p, hp, hpk⟩
            rcases knownFold_inv vs [] p hp with h | h
            · cases h
            · refine ⟨p.2, ?_, by rw [← h.1, hpk]⟩
              rw [mem_collectionFromMap]
              exact List.mem_map.mpr ⟨p, hp, rfl⟩

/-- Witness for claim C9: a concrete one-entry cache read aged past the
freshness window, with the fetch failing and no forced refresh, yields the
cached collection with the fallback flag and no cache write. -/
theorem c9_witness :
    (CacheRead.ok [ref100] 5 ≠ CacheRead.ioError) ∧
    ((false : Bool) = true ∨ (CacheRead.ok [ref100] 5).isMiss = true ∨
      (CacheRead.ok [ref100] 5).modTime = 0 ∨ 1000 - (CacheRead.ok [ref100] 5).modTime > 60) ∧
    (∃ res, loadAllM (CacheRead.ok [ref100] 5) false 1000 60 (Except.error ()) =
        { result := Except.ok res, wrote := none } ∧
      res.usedFallback = true ∧
      (∀ s : String, s ∈ res.versions.map render ↔
        s ∈ (CacheRead.ok [ref100] 5).versions.map render)) := by
  refine ⟨by decide, by decide, ?_⟩
  exact (c9_stale_fetch_failure (CacheRead.ok [ref100] 5) false 1000 60 (by decide)
    (by decide)).2 rfl (by decide)

/-- Embedding of `minorFromVersion`: the (major, minor) pair of the
zero-padded segments. -/
def minorKey (v : Version) : Nat × Nat :=
  (v.paddedSegs.1, v.paddedSegs.2.1)

/-- Embedding of `compareMinor`. -/
def compareMinor (a b : Nat × Nat) : Int :=
  if a.1 < b.1 then -1
  else if b.1 < a.1 then 1
  else if a.2 < b.2 then -1
  else if b.2 < a.2 then 1
  else 0

/-- Go map write on an association list keyed by minor key. -/
def upsertM (m : List ((Nat × Nat) × Version)) (k : Nat × Nat) (v : Version) :
    List ((Nat × Nat) × Version) :=
  if m.any (fun p => p.1 = k) then m.map (fun p => if p.1 = k then (k, v) else p)
  else m ++ [(k, v)]

/-- Go map lookup on an association list keyed by minor key. -/
def lookupM (m : List ((Nat × Nat) × Version)) (k : Nat × Nat) : Option Version :=
  (m.find? (fun p => p.1 = k)).map (fun p => p.2)

/-- Go map lookup on an association list keyed by string. -/
def lookupA (m : List (String × Version)) (k : String) : Option Version :=
  (m.find? (fun p => p.1 = k)).map (fun p => p.2)

/-- One catalog step of the latest-stable-by-minor construction of
`UpgradePath`: prereleases are skipped, and a stable candidate replaces the
stored tip of its minor when absent or smaller. -/
def latestStep (m : List ((Nat × Nat) × Version)) (c : Version) :
    List ((Nat × Nat) × Version) :=
  if c.pre ≠ "" then m
  else
    match lookupM m (minorKey c) with
    | none => upsertM m (minorKey c) c
    | some cur => if compareV cur c = -1 then upsertM m (minorKey c) c else m

/-- Embedding of the `latestByMinor` map built by `UpgradePath`: the greatest
stable version of each minor, prereleases skipped. -/
def latestOf (all : List Version) : List ((Nat × Nat) × Version) :=
  all.foldl latestStep []

/-- Embedding of the minor scan loop of `UpgradePath` (the `for _, key :=
range keys` loop): skip keys before the current minor, stop after the target
minor, skip tips beyond the target (prerelease targets only guard their own
minor) and tips not above the cursor; append the rest, advancing the cursor. -/
def upScan (latest : List ((Nat × Nat) × Version)) (startM targetM : Nat × Nat)
    (target : Version) :
    List (Nat × Nat) → Version → List Version → Version × List Version
  | [], cursor, path => (cursor, path)
  | k :: ks, cursor, path =>
    if compareMinor k startM < 0 then upScan latest startM targetM target ks cursor path
    else if compareMinor k targetM > 0 then (cursor, path)
    else
      match lookupM latest k with
      | none => upScan latest startM targetM target ks cursor path
      | some candidate =>
        if target.pre ≠ "" ∧ compareMinor k targetM = 0 ∧ compareV candidate target = 1 then
          upScan latest startM targetM target ks cursor path
        else if ¬ (target.pre ≠ "") ∧ compareV candidate target = 1 then
          upScan latest startM targetM target ks cursor path
        else if ¬ (compareV candidate cursor = 1) then
          upScan latest startM targetM target ks cursor path
        else upScan latest startM targetM target ks candidate (path ++ [candidate])

/-- Embedding of the deduplication loop of `UpgradePath`: drop anything not
above the current version and anything whose canonical string was already
seen. -/
def dedupPath (v : Version) : List Version → List String → List Version
  | [], _ => []
  | c :: cs, seen =>
    if ¬ (compareV c v = 1) then dedupPath v cs seen
    else if (render c) ∈ seen then dedupPath v cs seen
    else c :: dedupPath v cs (seen ++ [render c])

/-- Embedding of `(*Version).UpgradePath` with the catalog passed explicitly
in place of the `All` fetch (which the claim assumes to succeed); the
leading nil-receiver and nil-target errors of the Go method are not modelled
because the embedding's versions are values.  Go iterates its maps in
arbitrary order: `versionsByString` and `latestByMinor` are built here by
folds in catalog order (write order is irrelevant to the map contents), and
the keys are sorted with a deterministic insertion sort, which agrees with
Go's sort because the keys are distinct. -/
def upKeys (all : List Version) : List (Nat × Nat) :=
  List.insertionSort (fun a b => compareMinor a b ≤ 0) ((latestOf all).map (fun p => p.1))

/-- Cursor and path after the minor scan of `UpgradePath`. -/
def upScanRes (v target : Version) (all : List Version) : Version × List Version :=
  upScan (latestOf all) (minorKey v) (minorKey target) target (upKeys all) v []

/-- The `targetVersion` of `UpgradePath`: the catalog version with the
target's canonical string, or the target itself. -/
def upTargetVersion (target : Version) (all : List Version) : Version :=
  (lookupA (knownOf all) (render target)).getD target

/-- The path after the target-append step of `UpgradePath`. -/
def upPath2 (v target : Version) (all : List Version) : List Version :=
  if target.pre ≠ "" then
    if compareV (upScanRes v target all).1 (upTargetVersion target all) = -1 then
      (upScanRes v target all).2 ++ [upTargetVersion target all]
    else if (upScanRes v target all).2 = [] ∨
        ((upScanRes v target all).2.getLast?).map render ≠ some (render target) then
      (upScanRes v target all).2 ++ [upTargetVersion target all]
    else (upScanRes v target all).2
  else
    if (upScanRes v target all).2 = [] ∨
        ((upScanRes v target all).2.getLast?).map render ≠ some (render target) then
      if compareV (upTargetVersion target all) (upScanRes v target all).1 = 1 then
        (upScanRes v target all).2 ++ [upTargetVersion target all]
      else (upScanRes v target all).2
    else (upScanRes v target all).2

def upgradePath (v target : Version) (all : List Version) : Except String (List Version) :=
  if compareV target v = -1 then Except.error "downgrade"
  else Except.ok (dedupPath v (upPath2 v target all) [])

/-- Less-than face of the master comparison specification. -/
theorem compareV_lt_iff (a b : Version) : compareV a b = -1 ↔ key a < key b :=
  (compareV_key_spec a b).1

/-- Greater-than face of the master comparison specification. -/
theorem compareV_gt_iff (a b : Version) : compareV a b = 1 ↔ key b < key a :=
  (compareV_key_spec a b).2.2

/-- Equality face of the master comparison specification. -/
theorem compareV_zero_key (a b : Version) : compareV a b = 0 ↔ key a = key b :=
  (compareV_key_spec a b).2.1

/-- A comparison bounded by the key order is nonpositive. -/
theorem compareV_le_zero_of_key {a b : Version} (h : key a ≤ key b) : compareV a b ≤ 0 := by
  rcases compareV_values a b with h1 | h1 | h1
  · rw [h1]; norm_num
  · rw [h1]
  · exact absurd ((compareV_gt_iff a b).mp h1) (not_lt.mpr h)

/-- A comparison that is not greater-than bounds the keys. -/
theorem key_le_of_not_gt {a b : Version} (h : ¬ compareV a b = 1) : key a ≤ key b :=
  not_lt.mp (fun hl => h ((compareV_gt_iff a b).mpr hl))

/-- The minor comparison takes only the three values -1, 0 and 1. -/
theorem compareMinor_values (a b : Nat × Nat) :
    compareMinor a b = -1 ∨ compareMinor a b = 0 ∨ compareMinor a b = 1 := by
  unfold compareMinor
  split_ifs <;> norm_num

/-- A strictly smaller minor key forces a strictly smaller comparison key. -/
theorem key_lt_of_minor_lt {a b : Version} (h : compareMinor (minorKey a) (minorKey b) = -1) :
    key a < key b := by
  unfold compareMinor minorKey at h
  rw [keyLt_iff]
  by_cases h1 : a.paddedSegs.1 < b.paddedSegs.1
  · exact Or.inl h1
  rw [if_neg h1] at h
  by_cases h2 : b.paddedSegs.1 < a.paddedSegs.1
  · rw [if_pos h2] at h; cases h
  rw [if_neg h2] at h
  by_cases h3 : a.paddedSegs.2.1 < b.paddedSegs.2.1
  · exact Or.inr ⟨le_antisymm (not_lt.mp h2) (not_lt.mp h1), Or.inl h3⟩
  rw [if_neg h3] at h
  by_cases h4 : b.paddedSegs.2.1 < a.paddedSegs.2.1
  · rw [if_pos h4] at h; cases h
  · rw [if_neg h4] at h; cases h

/-- Finding a key in the minor map yields one of its entries. -/
theorem lookupM_mem {m : List ((Nat × Nat) × Version)} {k : Nat × Nat} {c : Version}
    (h : lookupM m k = some c) : ∃ p ∈ m, p.1 = k ∧ p.2 = c := by
  unfold lookupM at h
  rcases hf : m.find? (fun p => p.1 = k) with _ | p
  · rw [hf] at h; cases h
  · rw [hf] at h
    have hm := List.mem_of_find?_eq_some hf
    have hp := List.find?_some hf
    have h2 : p.2 = c := by simpa using h
    have hp2 : p.1 = k := by simpa using hp
    exact ⟨p, hm, hp2, h2⟩

/-- Entries of a minor-map upsert come from the old map or are the new
binding. -/
theorem upsertM_subset {m : List ((Nat × Nat) × Version)} {k : Nat × Nat} {v : Version} :
    ∀ p ∈ upsertM m k v, p ∈ m ∨ p = (k, v) := by
  intro p hp
  unfold upsertM at hp
  split at hp
  · rcases List.mem_map.mp hp with ⟨q, hq, he⟩
    by_cases hqk : q.1 = k
    · rw [if_pos hqk] at he
      exact Or.inr he.symm
    · rw [if_neg hqk] at he
      exact Or.inl (he ▸ hq)
  · rcases List.mem_append.mp hp with h | h
    · exact Or.inl h
    · exact Or.inr (List.mem_singleton.mp h)

/-- Entries added by one latest step are the stable candidate keyed by its
minor key. -/
theorem latestStep_subset (m : List ((Nat × Nat) × Version)) (c : Version) :
    ∀ q ∈ latestStep m c, q ∈ m ∨ (q = (minorKey c, c) ∧ c.pre = "") := by
  intro q hq
  unfold latestStep at hq
  by_cases hcp : c.pre ≠ ""
  · rw [if_pos hcp] at hq
    exact Or.inl hq
  · rw [if_neg hcp] at hq
    have hcp2 : c.pre = "" := not_ne_iff.mp hcp
    split at hq
    · rcases upsertM_subset q hq with h | h
      · exact Or.inl h
      · exact Or.inr ⟨h, hcp2⟩
    · split at hq
      · rcases upsertM_subset q hq with h | h
        · exact Or.inl h
        · exact Or.inr ⟨h, hcp2⟩
      · exact Or.inl hq

/-- Fold invariant of the latest-stable-by-minor map. -/
theorem latestFold_inv (cs : List Version) :
    ∀ (m0 : List ((Nat × Nat) × Version)), ∀ p ∈ cs.foldl latestStep m0,
      p ∈ m0 ∨ (p.2 ∈ cs ∧ p.2.pre = "" ∧ minorKey p.2 = p.1) := by
  induction cs with
  | nil => intro m0 p hp; exact Or.inl hp
  | cons c rest ih =>
      intro m0 p hp
      simp only [List.foldl_cons] at hp
      rcases ih (latestStep m0 c) p hp with h | h
      · rcases latestStep_subset m0 c p h with h2 | h2
        · exact Or.inl h2
        · refine Or.inr ⟨?_, ?_, ?_⟩
          · rw [h2.1]; exact List.mem_cons_self c rest
          · rw [h2.1]; exact h2.2
          · rw [h2.1]
      · exact Or.inr ⟨List.mem_cons_of_mem c h.1, h.2⟩

/-- Entries of the latest-stable-by-minor map are stable catalog versions
keyed by their own minor key. -/
theorem latestOf_inv (all : List Version) :
    ∀ p ∈ latestOf all, p.2 ∈ all ∧ p.2.pre = "" ∧ minorKey p.2 = p.1 := by
  intro p hp
  rcases latestFold_inv all [] p hp with h | h
  · cases h
  · exact h

/-- Invariant carried through the minor scan: the accumulated path is
strictly increasing, ends at the cursor, holds stable catalog versions
strictly above the start and bounded by the target (strictly for prerelease
targets), and the cursor never drops below the start. -/
def ScanGood (v target : Version) (all : List Version) (cursor : Version)
    (path : List Version) : Prop :=
  List.Pairwise (fun a b => key a < key b) path ∧
  ((path = [] ∧ cursor = v) ∨ path.getLast? = some cursor) ∧
  (∀ x ∈ path, x ∈ all ∧ key v < key x ∧ key x ≤ key target ∧
    (target.pre ≠ "" → key x < key target) ∧ key x ≤ key cursor) ∧
  key v ≤ key cursor

/-- The minor scan preserves its invariant. -/
theorem upScan_good (v target : Version) (all : List Version)
    (latest : List ((Nat × Nat) × Version))
    (hlat : ∀ p ∈ latest, p.2 ∈ all ∧ p.2.pre = "" ∧ minorKey p.2 = p.1) :
    ∀ (ks : List (Nat × Nat)) (cursor : Version) (path : List Version),
      ScanGood v target all cursor path →
      ScanGood v target all
        (upScan latest (minorKey v) (minorKey target) target ks cursor path).1
        (upScan latest (minorKey v) (minorKey target) target ks cursor path).2 := by
  intro ks
  induction ks with
  | nil => intro cursor path h; simpa [upScan] using h
  | cons k ks ih =>
      intro cursor path h
      simp only [upScan]
      split
      · exact ih cursor path h
      split
      · simpa using h
      rename_i hnb1 hnb2
      split
      · exact ih cursor path h
      rename_i cand hl
      split
      · exact ih cursor path h
      rename_i hs1
      split
      · exact ih cursor path h
      rename_i hs2
      split
      · exact ih cursor path h
      rename_i hs3
      obtain ⟨hP, hLast, hAll, hCur⟩ := h
      have hgt : compareV cand cursor = 1 := not_not.mp hs3
      have hck : key cursor < key cand := (compareV_gt_iff cand cursor).mp hgt
      obtain ⟨p, hpmem, hpk, hpv⟩ := lookupM_mem hl
      obtain ⟨hcand_mem, hcand_pre, hcand_min⟩ := hpv ▸ hlat p hpmem
      rw [hpk] at hcand_min
      have hbound : key cand ≤ key target ∧ (target.pre ≠ "" → key cand < key target) := by
        by_cases htp : target.pre ≠ ""
        · rcases compareMinor_values k (minorKey target) with hm | hm | hm
          · have hlt : key cand < key target := key_lt_of_minor_lt (by rw [hcand_min]; exact hm)
            exact ⟨le_of_lt hlt, fun _ => hlt⟩
          · have hng : ¬ (compareV cand target = 1) := fun hg => hs1 ⟨htp, hm, hg⟩
            have hle : key cand ≤ key target := key_le_of_not_gt hng
            have hne : key cand ≠ key target := by
              intro he
              have h0 : compareV cand target = 0 := (compareV_zero_key cand target).mpr he
              have hfields := (compareV_eq_zero_iff cand target).mp h0
              exact htp (hfields.2.1 ▸ hcand_pre)
            exact ⟨hle, fun _ => lt_of_le_of_ne hle hne⟩
          · rw [hm] at hnb2
            exact absurd (by norm_num : (1 : Int) > 0) hnb2
        · have hng : ¬ (compareV cand target = 1) := fun hg => hs2 ⟨htp, hg⟩
          exact ⟨key_le_of_not_gt hng, fun ht => absurd ht htp⟩
      refine ih cand (path ++ [cand]) ?_
      refine ⟨?_, Or.inr (List.getLast?_concat path), ?_, le_of_lt (lt_of_le_of_lt hCur hck)⟩
      · rw [List.pairwise_append]
        refine ⟨hP, List.pairwise_singleton _ _, ?_⟩
        intro x hx y hy
        rw [List.mem_singleton.mp hy]
        exact lt_of_le_of_lt (hAll x hx).2.2.2.2 hck
      · intro x hx
        rcases List.mem_append.mp hx with hx2 | hx2
        · obtain ⟨m1, m2, m3, m4, m5⟩ := hAll x hx2
          exact ⟨m1, m2, m3, m4, le_of_lt (lt_of_le_of_lt m5 hck)⟩
        · rw [List.mem_singleton.mp hx2]
          exact ⟨hcand_mem, lt_of_le_of_lt hCur hck, hbound.1, hbound.2, le_refl _⟩

/-- An element found by getLast? belongs to the list. -/
theorem mem_of_getLastQ {α : Type} {l : List α} {a : α} (h : l.getLast? = some a) : a ∈ l := by
  cases l with
  | nil => cases h
  | cons x xs =>
      have hne : (x :: xs) ≠ [] := List.cons_ne_nil x xs
      rw [List.getLast?_eq_getLast _ hne] at h
      injection h with h2
      rw [← h2]
      exact List.getLast_mem hne

/-- When all renderings are distinct and unseen, the dedup loop of
`UpgradePath` reduces to filtering for versions above the current one. -/
theorem dedupPath_eq_filter (v : Version) :
    ∀ (l : List Version) (seen : List String),
      (∀ x ∈ l, render x ∉ seen) →
      List.Pairwise (fun a b => render a ≠ render b) l →
      dedupPath v l seen = l.filter (fun c => compareV c v == 1) := by
  intro l
  induction l with
  | nil => intro seen _ _; rfl
  | cons c cs ih =>
      intro seen hseen hpw
      simp only [dedupPath, List.filter_cons]
      by_cases hc : compareV c v = 1
      · rw [if_neg (not_not.mpr hc), if_neg (hseen c (List.mem_cons_self c cs)),
          if_pos (by simpa using hc)]
        congr 1
        refine ih (seen ++ [render c]) ?_ hpw.of_cons
        intro x hx hmem
        rcases List.mem_append.mp hmem with h2 | h2
        · exact hseen x (List.mem_cons_of_mem c hx) h2
        · exact (List.pairwise_cons.mp hpw).1 x hx (List.mem_singleton.mp h2).symm
      · rw [if_pos hc, if_neg (by simpa using hc)]
        refine ih seen ?_ hpw.of_cons
        intro x hx
        exact hseen x (List.mem_cons_of_mem c hx)

/-- Finding a key in the string map yields one of its entries. -/
theorem lookupA_mem {m : List (String × Version)} {k : String} {c : Version}
    (h : lookupA m k = some c) : ∃ p ∈ m, p.1 = k ∧ p.2 = c := by
  unfold lookupA at h
  rcases hf : m.find? (fun p => p.1 = k) with _ | p
  · rw [hf] at h; cases h
  · rw [hf] at h
    have hm := List.mem_of_find?_eq_some hf
    have hp := List.find?_some hf
    have h2 : p.2 = c := by simpa using h
    have hp2 : p.1 = k := by simpa using hp
    exact ⟨p, hm, hp2, h2⟩

/-- The target version resolved by `UpgradePath` is the target or a catalog
version with the target's canonical string. -/
theorem upTargetVersion_spec (target : Version) (all : List Version) :
    upTargetVersion target all ∈ target :: all ∧
      render (upTargetVersion target all) = render target := by
  unfold upTargetVersion
  rcases hlk : lookupA (knownOf all) (render target) with _ | c
  · exact ⟨List.mem_cons_self target all, rfl⟩
  · obtain ⟨p, hp, hpk, hpv⟩ := lookupA_mem hlk
    rcases knownFold_inv all [] p hp with h | h
    · cases h
    · refine ⟨List.mem_cons_of_mem target (hpv ▸ h.2), ?_⟩
      show render c = render target
      rw [← hpv, ← h.1, hpk]

/-- Appending a version with the target's key to a good path keeps it good
and makes it end at the target's key. -/
theorem append_good (target tv : Version) (all : List Version) (path : List Version)
    (cursor : Version)
    (hP : List.Pairwise (fun a b => key a < key b) path)
    (hbound : ∀ x ∈ path, x ∈ target :: all ∧ key x ≤ key target)
    (hlt : ∀ x ∈ path, key x ≤ key cursor)
    (hck : key cursor < key tv)
    (htvm : tv ∈ target :: all) (htk : key tv = key target) :
    List.Pairwise (fun a b => key a < key b) (path ++ [tv]) ∧
    (∀ x ∈ path ++ [tv], x ∈ target :: all ∧ key x ≤ key target) ∧
    (∃ l, (path ++ [tv]).getLast? = some l ∧ key l = key target) := by
  refine ⟨?_, ?_, ⟨tv, List.getLast?_concat path, htk⟩⟩
  · rw [List.pairwise_append]
    refine ⟨hP, List.pairwise_singleton _ _, ?_⟩
    intro x hx y hy
    rw [List.mem_singleton.mp hy]
    exact lt_of_le_of_lt (hlt x hx) hck
  · intro x hx
    rcases List.mem_append.mp hx with h | h
    · exact hbound x h
    · rw [List.mem_singleton.mp h]
      exact ⟨htvm, le_of_eq htk⟩

/-- The path after the target-append step is strictly increasing in key
order, bounded by the target, drawn from the catalog plus the target, and,
when the target exceeds the start, it ends at the target's key. -/
theorem upPath2_good (v target : Version) (all : List Version)
    (hinj : ∀ c ∈ target :: all, ∀ d ∈ target :: all, render c = render d → compareV c d = 0) :
    List.Pairwise (fun a b => key a < key b) (upPath2 v target all) ∧
    (∀ x ∈ upPath2 v target all, x ∈ target :: all ∧ key x ≤ key target) ∧
    (key v < key target →
      ∃ l, (upPath2 v target all).getLast? = some l ∧ key l = key target) := by
  have hsg : ScanGood v target all (upScanRes v target all).1 (upScanRes v target all).2 :=
    upScan_good v target all (latestOf all) (latestOf_inv all) (upKeys all) v []
      ⟨List.Pairwise.nil, Or.inl ⟨rfl, rfl⟩, fun x hx => absurd hx (List.not_mem_nil x),
        le_refl _⟩
  rcases hres : upScanRes v target all with ⟨cursor, path⟩
  rw [hres] at hsg
  dsimp only at hsg
  obtain ⟨hP, hLast, hAll, hCur⟩ := hsg
  obtain ⟨htvm, htvr⟩ := upTargetVersion_spec target all
  have htk : key (upTargetVersion target all) = key target :=
    (compareV_zero_key _ _).mp
      (hinj (upTargetVersion target all) htvm target (List.mem_cons_self target all) htvr)
  have hpb : ∀ x ∈ path, x ∈ target :: all ∧ key x ≤ key target :=
    fun x hx => ⟨List.mem_cons_of_mem target (hAll x hx).1, (hAll x hx).2.2.1⟩
  have hpl : ∀ x ∈ path, key x ≤ key cursor := fun x hx => (hAll x hx).2.2.2.2
  simp only [upPath2, hres]
  by_cases htp : target.pre ≠ ""
  · rw [if_pos htp]
    by_cases hc1 : compareV cursor (upTargetVersion target all) = -1
    · rw [if_pos hc1]
      have hck : key cursor < key (upTargetVersion target all) := (compareV_lt_iff _ _).mp hc1
      obtain ⟨g1, g2, g3⟩ := append_good target (upTargetVersion target all) all path cursor
        hP hpb hpl hck htvm htk
      exact ⟨g1, g2, fun _ => g3⟩
    · rw [if_neg hc1]
      have hpe : path = [] := by
        by_contra hne
        have hcm : cursor ∈ path := by
          rcases hLast with ⟨h1, _⟩ | h1
          · exact absurd h1 hne
          · exact mem_of_getLastQ h1
        have hlt2 : key cursor < key target := (hAll cursor hcm).2.2.2.1 htp
        rw [← htk] at hlt2
        exact hc1 ((compareV_lt_iff _ _).mpr hlt2)
      rw [if_pos (Or.inl hpe), hpe]
      refine ⟨List.pairwise_singleton _ _, ?_, ?_⟩
      · intro x hx
        rw [List.mem_singleton.mp hx]
        exact ⟨htvm, le_of_eq htk⟩
      · intro _
        exact ⟨upTargetVersion target all, by simp, htk⟩
  · rw [if_neg htp]
    by_cases hc1 : path = [] ∨ (path.getLast?).map render ≠ some (render target)
    · rw [if_pos hc1]
      by_cases hc2 : compareV (upTargetVersion target all) cursor = 1
      · rw [if_pos hc2]
        have hck : key cursor < key (upTargetVersion target all) :=
          (compareV_gt_iff _ _).mp hc2
        obtain ⟨g1, g2, g3⟩ := append_good target (upTargetVersion target all) all path cursor
          hP hpb hpl hck htvm htk
        exact ⟨g1, g2, fun _ => g3⟩
      · rw [if_neg hc2]
        refine ⟨hP, hpb, ?_⟩
        intro hvt
        have htc : key target ≤ key cursor := by
          have := key_le_of_not_gt hc2
          rwa [htk] at this
        have hne : path ≠ [] := by
          intro hpe
          rcases hLast with ⟨_, h2⟩ | h1
          · rw [h2] at htc
            exact absurd hvt (not_lt.mpr htc)
          · rw [hpe] at h1; cases h1
        have hgl : path.getLast? = some cursor := by
          rcases hLast with ⟨h1, _⟩ | h1
          · exact absurd h1 hne
          · exact h1
        have hcm : cursor ∈ path := mem_of_getLastQ hgl
        exact ⟨cursor, hgl, le_antisymm (hAll cursor hcm).2.2.1 htc⟩
    · rw [if_neg hc1]
      push_neg at hc1
      obtain ⟨hne, hrender⟩ := hc1
      have hgl : path.getLast? = some cursor := by
        rcases hLast with ⟨h1, _⟩ | h1
        · exact absurd h1 hne
        · exact h1
      have hcm : cursor ∈ path := mem_of_getLastQ hgl
      have hrc : render cursor = render target := by
        rw [hgl] at hrender
        simpa using hrender
      have hkc : key cursor = key target :=
        (compareV_zero_key _ _).mp
          (hinj cursor (List.mem_cons_of_mem target (hAll cursor hcm).1) target
            (List.mem_cons_self target all) hrc)
      exact ⟨hP, hpb, fun _ => ⟨cursor, hgl, hkc⟩⟩

/-- Claim C8: UpgradePath errors on a downgrade; otherwise (with the catalog
load assumed successful and the catalog renderings consistent) the result is
strictly increasing, every element is at most the target, every element is
strictly above the current version, the last element compares equal to the
target whenever the target is strictly above the current version, and the
result is empty when the current version already equals the target. -/
theorem c8_upgrade_path (v target : Version) (all : List Version)
    (hinj : ∀ c ∈ target :: all, ∀ d ∈ target :: all, render c = render d → compareV c d = 0) :
    (compareV target v = -1 → upgradePath v target all = Except.error "downgrade") ∧
    (compareV target v ≠ -1 → ∃ path, upgradePath v target all = Except.ok path ∧
      List.Pairwise (fun a b => compareV a b = -1) path ∧
      (∀ x ∈ path, compareV x target ≤ 0) ∧
      (∀ x ∈ path, compareV x v = 1) ∧
      (compareV target v = 1 → ∃ l, path.getLast? = some l ∧ compareV l target = 0) ∧
      (compareV target v = 0 → path = [])) := by
  constructor
  · intro h
    unfold upgradePath
    rw [if_pos h]
  · intro hnd
    obtain ⟨gP, gB, gL⟩ := upPath2_good v target all hinj
    have hdr : List.Pairwise (fun a b => render a ≠ render b) (upPath2 v target all) := by
      refine List.Pairwise.imp_of_mem ?_ gP
      intro a b ha hb hab hre
      have h0 := hinj a (gB a ha).1 b (gB b hb).1 hre
      have hk := (compareV_zero_key a b).mp h0
      exact absurd hab (hk ▸ lt_irrefl _)
    have hfil : dedupPath v (upPath2 v target all) [] =
        (upPath2 v target all).filter (fun c => compareV c v == 1) :=
      dedupPath_eq_filter v _ [] (fun x _ hx => List.not_mem_nil _ hx) hdr
    refine ⟨(upPath2 v target all).filter (fun c => compareV c v == 1), ?_, ?_, ?_, ?_, ?_, ?_⟩
    · unfold upgradePath
      rw [if_neg hnd, hfil]
    · exact (List.Pairwise.sublist (List.filter_sublist _) gP).imp
        (fun hab => (compareV_lt_iff _ _).mpr hab)
    · intro x hx
      have hx2 := (List.filter_sublist _).subset hx
      exact compareV_le_zero_of_key (gB x hx2).2
    · intro x hx
      have hm := List.mem_filter.mp hx
      simpa using hm.2
    · intro hgt
      have hkt : key v < key target := (compareV_gt_iff target v).mp hgt
      obtain ⟨l, hl, hlk⟩ := gL hkt
      have hne : upPath2 v target all ≠ [] := by
        intro he
        rw [he] at hl
        cases hl
      have hlast_eq : (upPath2 v target all).getLast hne = l := by
        rw [List.getLast?_eq_getLast _ hne] at hl
        injection hl
      have hlp : (compareV l v == 1) = true := by
        have hlt : key v < key l := by rw [hlk]; exact hkt
        simpa using (compareV_gt_iff l v).mpr hlt
      refine ⟨l, ?_, (compareV_zero_key l target).mpr hlk⟩
      have hstep : (upPath2 v target all).filter (fun c => compareV c v == 1) =
          ((upPath2 v target all).dropLast).filter (fun c => compareV c v == 1) ++ [l] := by
        conv_lhs => rw [← List.dropLast_append_getLast hne]
        rw [List.filter_append, hlast_eq]
        simp [List.filter_cons, hlp]
      rw [hstep]
      exact List.getLast?_concat _
    · intro heq
      have hkeq : key target = key v := (compareV_zero_key target v).mp heq
      rw [List.filter_eq_nil_iff]
      intro a ha
      have hb := (gB a ha).2
      simp only [beq_iff_eq]
      intro hpa
      have hlt : key v < key a := (compareV_gt_iff a v).mp hpa
      rw [← hkeq] at hlt
      exact absurd hb (not_le.mpr hlt)

/-- Concrete catalog for the upgrade-path witness. -/
def demoCatalog : List Version :=
  [{ seg0 := 1, seg1 := 24, seg2 := 3, numSegments := 3, pre := "", isK0s := false,
     k0s := 0, meta := "" },
   { seg0 := 1, seg1 := 25, seg2 := 1, numSegments := 3, pre := "", isK0s := false,
     k0s := 0, meta := "" },
   { seg0 := 1, seg1 := 26, seg2 := 0, numSegments := 3, pre := "", isK0s := false,
     k0s := 0, meta := "" },
   { seg0 := 1, seg1 := 26, seg2 := 1, numSegments := 3, pre := "", isK0s := false,
     k0s := 0, meta := "" }]

/-- Concrete current version v1.24.1 for the upgrade-path witness. -/
def cur8 : Version :=
  { seg0 := 1, seg1 := 24, seg2 := 1, numSegments := 3, pre := "", isK0s := false,
    k0s := 0, meta := "" }

/-- Concrete target version v1.26.1+k0s.0 for the upgrade-path witness. -/
def tgt8 : Version :=
  { seg0 := 1, seg1 := 26, seg2 := 1, numSegments := 3, pre := "", isK0s := true,
    k0s := 0, meta := "" }

/-- Witness for claim C8 at a concrete catalog and version pair. -/
theorem c8_witness :
    (∀ c ∈ tgt8 :: demoCatalog, ∀ d ∈ tgt8 :: demoCatalog,
        render c = render d → compareV c d = 0) ∧
    compareV tgt8 cur8 ≠ -1 ∧
    (∃ path, upgradePath cur8 tgt8 demoCatalog = Except.ok path ∧
      List.Pairwise (fun a b => compareV a b = -1) path ∧
      (∀ x ∈ path, compareV x tgt8 ≤ 0) ∧
      (∀ x ∈ path, compareV x cur8 = 1) ∧
      (compareV tgt8 cur8 = 1 → ∃ l, path.getLast? = some l ∧ compareV l tgt8 = 0) ∧
      (compareV tgt8 cur8 = 0 → path = [])) := by
  refine ⟨by decide, by decide, ?_⟩
  exact (c8_upgrade_path cur8 tgt8 demoCatalog (by decide)).2 (by decide)
